import Mathlib

/-!
Verification development for the fog_pack core: a shallow embedding of the
repository's document/entry pipeline (`src/entry.rs`, `src/no_schema.rs`),
the cryptographic lock (`src/crypto/lock.rs`) and the schema validators
(`src/validator/array.rs`, `src/validator/time.rs`), together with proofs
about the claims of the specification.

Conventions of the embedding:
* Byte sequences are `List Nat` over an abstract byte alphabet; fixed-width
  binary fields (public keys, digests, stream ids) are single symbols of
  that alphabet.
* The BLAKE2b-family hash is modelled as a free (collision-free) hash: the
  digest is an injective encoding of the byte sequence fed into the state.
* Fallible Rust functions returning `io::Result`/`Result<_, CryptoError>`
  become `Except`/`Option`; `&mut self` methods return the updated value.
-/

/-- Modelled from the spec: injective digest of a byte sequence, standing in
for the fixed-width BLAKE2b digest.  `Nat.pair` keeps it injective, so equal
digests mean equal inputs, and inputs of different lengths give different
digests. -/
def digestOf (l : List Nat) : Nat :=
  Nat.pair l.length (l.foldl Nat.pair 0)

/-- Modelled from the spec: a Hash is a version tag plus a digest; equality
is structural on version and digest. -/
structure Hash where
  version : Nat
  digest : Nat
deriving DecidableEq, Repr

/-- Modelled from the spec: `Hash::new_empty()`, a sentinel hash distinct
from any version-1 digest. -/
def Hash.new_empty : Hash := ⟨0, 0⟩

/-- Modelled from the spec: incremental hash state; `update` feeds bytes,
`get_hash` snapshots the digest of everything fed so far. -/
structure HashState where
  acc : List Nat
deriving DecidableEq, Repr

def HashState.new : HashState := ⟨[]⟩

def HashState.update (s : HashState) (bytes : List Nat) : HashState :=
  ⟨s.acc ++ bytes⟩

def HashState.get_hash (s : HashState) : Hash :=
  ⟨1, digestOf s.acc⟩

/-- Modelled from the spec: an Identity is a versioned public signing key
(the 32-byte key is one symbol of the abstract alphabet). -/
structure Identity where
  version : Nat
  key : Nat
deriving DecidableEq, Repr

/-- Modelled from the spec: a detached signature carries a version, the
signer Identity, and (idealized perfect signature scheme) the hash that was
signed; `verify` recomputes against a candidate hash. -/
structure Signature where
  version : Nat
  signer : Identity
  signedHash : Hash
deriving DecidableEq, Repr

def Signature.signed_by (s : Signature) : Identity := s.signer

def Signature.verify (s : Signature) (h : Hash) : Bool :=
  decide (s.signedHash = h)

/-- Modelled from the spec: signature tail byte form,
version then public-key then signature bytes; self-delimiting. -/
def sigEncode (s : Signature) : List Nat :=
  [s.version, s.signer.version, s.signer.key, s.signedHash.version, s.signedHash.digest]

/-- Modelled from the spec: parse one signature off the front of a byte
sequence; fails on truncation or an unsupported version. -/
def sigDecode : List Nat → Option (Signature × List Nat)
  | sv :: iv :: ik :: hv :: hd :: rest =>
      if sv = 1 then some (⟨sv, ⟨iv, ik⟩, ⟨hv, hd⟩⟩, rest) else none
  | _ => none

inductive CryptoError where
  | UnsupportedVersion
  | BadKey
  | NotInStorage
  | DecryptFailed
  | Io (msg : String)
deriving DecidableEq, Repr

/-- Modelled from the spec: a private signing key handle held in a Vault. -/
structure Key where
  version : Nat
  id : Identity
deriving DecidableEq, Repr

/-- Modelled from the spec: the Vault collaborator storing signing keys. -/
structure Vault where
  keys : List Key
deriving DecidableEq, Repr

/-- Modelled from the spec: `Vault::sign(hash, key)` fails when the key is
unknown (`NotInStorage`) or of an unsupported version (`BadKey`), and
otherwise produces a version-1 signature over the given hash. -/
def Vault.sign (v : Vault) (h : Hash) (key : Key) : Except CryptoError Signature :=
  if key ∈ v.keys then
    if key.version = 1 then Except.ok ⟨1, key.id, h⟩ else Except.error CryptoError.BadKey
  else Except.error CryptoError.NotInStorage

def MAX_DOC_SIZE : Nat := 1048576

def MAX_ENTRY_SIZE : Nat := 65536

theorem sigEncode_length (s : Signature) : (sigEncode s).length = 5 := rfl

theorem sigDecode_sigEncode (s : Signature) (rest : List Nat) (h : s.version = 1) :
    sigDecode (sigEncode s ++ rest) = some (s, rest) := by
  cases s with
  | mk sv signer sh =>
    cases signer; cases sh
    simp only [sigEncode, sigDecode, List.cons_append, List.nil_append]
    subst h
    simp

theorem sigDecode_shorter {b : List Nat} {s : Signature} {rest : List Nat}
    (h : sigDecode b = some (s, rest)) : rest.length + 5 = b.length := by
  match b with
  | [] => simp [sigDecode] at h
  | [_] => simp [sigDecode] at h
  | [_, _] => simp [sigDecode] at h
  | [_, _, _] => simp [sigDecode] at h
  | [_, _, _, _] => simp [sigDecode] at h
  | sv :: iv :: ik :: hv :: hd :: r =>
    simp only [sigDecode] at h
    split at h
    · cases h; simp
    · exact absurd h (by simp)

/-- Modelled from the spec: a Timestamp is seconds since the UTC epoch plus
nanoseconds; total order is lexicographic on `(sec, nano)`. -/
structure Timestamp where
  sec : Int
  nano : Nat
deriving DecidableEq, Repr

def Timestamp.zero : Timestamp := ⟨0, 0⟩

def Timestamp.min_value : Timestamp := ⟨-9223372036854775808, 0⟩

def Timestamp.max_value : Timestamp := ⟨9223372036854775807, 999999999⟩

def timeLe (a b : Timestamp) : Bool :=
  decide (a.sec < b.sec) || (decide (a.sec = b.sec) && decide (a.nano ≤ b.nano))

def timeLt (a b : Timestamp) : Bool :=
  decide (a.sec < b.sec) || (decide (a.sec = b.sec) && decide (a.nano < b.nano))

/-- Modelled from the spec: the self-describing typed value tree.  The
embedding keeps a representative subset of the spec's variants (Null, Bool,
Int, Str, Hash, Timestamp, Array, Map); strings are byte lists. -/
inductive Value where
  | nullV : Value
  | boolV : Bool → Value
  | intV : Int → Value
  | strV : List Nat → Value
  | hashV : Hash → Value
  | timeV : Timestamp → Value
  | arrayV : List Value → Value
  | mapV : List (List Nat × Value) → Value

def Value.isMap : Value → Bool
  | .mapV _ => true
  | _ => false

/-- Does the body's first map entry bind the empty-string key to a Hash?
This is the spec's criterion for the presence of a schema hash (map keys
are sorted, so the empty string can only come first). -/
def hasSchemaHash : Value → Bool
  | .mapV (([], .hashV _) :: _) => true
  | _ => false

def zigzag (i : Int) : Nat :=
  if 0 ≤ i then 2 * i.toNat else 2 * (-i).toNat - 1

/-- Modelled from the spec: canonical encoding of a string value
(tag, length, bytes). -/
def encodeStr (s : List Nat) : List Nat := 3 :: s.length :: s

mutual
/-- Modelled from the spec: the canonical, deterministic, self-delimiting
binary encoding of a Value (tag-length-value over the abstract alphabet;
map entries are written in their stored order, which is sorted for
canonical values). -/
def encodeValue : Value → List Nat
  | .nullV => [0]
  | .boolV b => [1, cond b 1 0]
  | .intV i => [2, zigzag i]
  | .strV s => encodeStr s
  | .hashV h => [4, h.version, h.digest]
  | .timeV t => [7, zigzag t.sec, t.nano]
  | .arrayV l => 5 :: l.length :: encodeList l
  | .mapV m => 6 :: m.length :: encodeEntries m
def encodeList : List Value → List Nat
  | [] => []
  | v :: t => encodeValue v ++ encodeList t
def encodeEntries : List (List Nat × Value) → List Nat
  | [] => []
  | (k, v) :: t => encodeStr k ++ encodeValue v ++ encodeEntries t
end

/-- Strict lexicographic byte order on keys. -/
def listLt : List Nat → List Nat → Bool
  | [], [] => false
  | [], _ :: _ => true
  | _ :: _, [] => false
  | a :: as, b :: bs => if a < b then true else if b < a then false else listLt as bs

/-- Keys in strictly ascending order, each above the optional lower bound. -/
def keysSortedFrom : Option (List Nat) → List (List Nat) → Bool
  | _, [] => true
  | none, k :: t => keysSortedFrom (some k) t
  | some p, k :: t => listLt p k && keysSortedFrom (some k) t

mutual
/-- Canonical well-formedness of a Value: every map has strictly sorted
keys. -/
def valueWF : Value → Bool
  | .arrayV l => valueListWF l
  | .mapV m => keysSortedFrom none (m.map Prod.fst) && valueEntriesWF m
  | _ => true
def valueListWF : List Value → Bool
  | [] => true
  | v :: t => valueWF v && valueListWF t
def valueEntriesWF : List (List Nat × Value) → Bool
  | [] => true
  | (_, v) :: t => valueWF v && valueEntriesWF t
end

mutual
/-- Nesting depth of a Value, used to bound parser fuel. -/
def depthV : Value → Nat
  | .arrayV l => depthL l + 1
  | .mapV m => depthE m + 1
  | _ => 1
def depthL : List Value → Nat
  | [] => 0
  | v :: t => max (depthV v) (depthL t)
def depthE : List (List Nat × Value) → Nat
  | [] => 0
  | (_, v) :: t => max (depthV v) (depthE t)
end

mutual
/-- Modelled from the spec: the zero-copy validating parser behind
`decode::verify_value`.  Consumes exactly one value, returning the remaining
bytes; rejects truncation, non-canonical booleans and unsorted map keys.
Fuel (consumed on every recursive step) only guards termination and is
irrelevant once it is at least the node count of the value. -/
def parseValB (fuel : Nat) (b : List Nat) : Option (List Nat) :=
  match fuel, b with
  | 0, _ => none
  | _+1, 0 :: rest => some rest
  | _+1, 1 :: x :: rest => if x ≤ 1 then some rest else none
  | _+1, 2 :: _ :: rest => some rest
  | _+1, 3 :: n :: rest => if n ≤ rest.length then some (rest.drop n) else none
  | _+1, 4 :: _ :: _ :: rest => some rest
  | f+1, 5 :: n :: rest => parseManyB f n rest
  | f+1, 6 :: n :: rest => parseMapB f n none rest
  | _+1, 7 :: _ :: _ :: rest => some rest
  | _+1, _ => none
termination_by structural fuel
def parseManyB (fuel : Nat) (n : Nat) (b : List Nat) : Option (List Nat) :=
  match fuel, n with
  | _, 0 => some b
  | 0, _+1 => none
  | f+1, n+1 =>
    match parseValB f b with
    | some rest => parseManyB f n rest
    | none => none
termination_by structural fuel
def parseMapB (fuel : Nat) (n : Nat) (prev : Option (List Nat)) (b : List Nat) :
    Option (List Nat) :=
  match fuel, n with
  | _, 0 => some b
  | 0, _+1 => none
  | f+1, n+1 =>
    match b with
    | 3 :: klen :: rest =>
      if klen ≤ rest.length then
        let k := rest.take klen
        let rest' := rest.drop klen
        if (match prev with | none => true | some p => listLt p k) then
          match parseValB f rest' with
          | some rest'' => parseMapB f n (some k) rest''
          | none => none
        else none
      else none
    | _ => none
termination_by structural fuel
end

mutual
/-- Node count of a Value (values plus list links), the fuel needed to
parse its encoding. -/
def nodesV : Value → Nat
  | .arrayV l => nodesL l + 1
  | .mapV m => nodesE m + 1
  | _ => 1
def nodesL : List Value → Nat
  | [] => 0
  | v :: t => nodesV v + nodesL t + 1
def nodesE : List (List Nat × Value) → Nat
  | [] => 0
  | (_, v) :: t => nodesV v + nodesE t + 1
end

/-- Modelled from the spec: `decode::verify_value`, returning the number of
bytes consumed by exactly one top-level value.  The fuel `2·|b| + 1`
exceeds the node count of any value encoded in `b`. -/
def verifyValue (b : List Nat) : Option Nat :=
  match parseValB (2 * b.length + 1) b with
  | some rest => some (b.length - rest.length)
  | none => none

/-- Modelled from the spec: `document::parse_schema_hash` plus the length of
the header it consumes.  Returns the schema hash exactly when the bytes
begin a non-empty map whose first key is the empty string bound to a Hash
value; the header (map tag, count, empty key, hash value) is 7 symbols. -/
def parseSchemaHashFull (b : List Nat) : Option (Hash × Nat) :=
  match b with
  | 6 :: n :: rest =>
    if n = 0 then none
    else
      match rest with
      | 3 :: 0 :: 4 :: hv :: hd :: _ => some (⟨hv, hd⟩, 7)
      | _ => none
  | _ => none

def parseSchemaHash (b : List Nat) : Option Hash :=
  (parseSchemaHashFull b).map Prod.fst

theorem one_le_nodesV (v : Value) : 1 ≤ nodesV v := by
  cases v <;> simp [nodesV]

mutual
theorem parseValB_encode (v : Value) (rest : List Nat) (fuel : Nat)
    (hf : nodesV v ≤ fuel) (hwf : valueWF v = true) :
    parseValB fuel (encodeValue v ++ rest) = some rest := by
  match fuel, hf with
  | 0, hf => exact absurd (le_trans (one_le_nodesV v) hf) (by omega)
  | f+1, hf =>
    match v with
    | .nullV => simp [encodeValue, parseValB]
    | .boolV b => cases b <;> simp [encodeValue, parseValB]
    | .intV i => simp [encodeValue, parseValB]
    | .strV s =>
      simp [encodeValue, encodeStr, parseValB, List.take_left, List.drop_left]
    | .hashV h => simp [encodeValue, parseValB]
    | .timeV t => simp [encodeValue, parseValB]
    | .arrayV l =>
      have hd : nodesL l ≤ f := by
        have : nodesV (.arrayV l) = nodesL l + 1 := by simp [nodesV]
        omega
      have hw : valueListWF l = true := by simpa [valueWF] using hwf
      simp only [encodeValue, List.cons_append, List.append_assoc, parseValB]
      exact parseManyB_encodeList l rest f hd hw
    | .mapV m =>
      have hd : nodesE m ≤ f := by
        have : nodesV (.mapV m) = nodesE m + 1 := by simp [nodesV]
        omega
      have hw : valueEntriesWF m = true := by
        simp [valueWF] at hwf
        exact hwf.2
      have hs : keysSortedFrom none (m.map Prod.fst) = true := by
        simp [valueWF] at hwf
        exact hwf.1
      simp only [encodeValue, List.cons_append, List.append_assoc, parseValB]
      exact parseMapB_encodeEntries m none rest f hd hw hs
termination_by sizeOf v
theorem parseManyB_encodeList (l : List Value) (rest : List Nat) (fuel : Nat)
    (hf : nodesL l ≤ fuel) (hwf : valueListWF l = true) :
    parseManyB fuel l.length (encodeList l ++ rest) = some rest := by
  match l with
  | [] => simp [encodeList, parseManyB]
  | v :: t =>
    match fuel with
    | 0 => simp [nodesL] at hf
    | f+1 =>
      have hfv : nodesV v ≤ f := by simp [nodesL] at hf; omega
      have hft : nodesL t ≤ f := by simp [nodesL] at hf; omega
      have hwv : valueWF v = true := by simp [valueListWF] at hwf; exact hwf.1
      have hwt : valueListWF t = true := by simp [valueListWF] at hwf; exact hwf.2
      have step : encodeList (v :: t) ++ rest = encodeValue v ++ (encodeList t ++ rest) := by
        simp [encodeList]
      rw [step, List.length_cons]
      simp only [parseManyB, parseValB_encode v (encodeList t ++ rest) f hfv hwv]
      exact parseManyB_encodeList t rest f hft hwt
termination_by sizeOf l
theorem parseMapB_encodeEntries (m : List (List Nat × Value)) (prev : Option (List Nat))
    (rest : List Nat) (fuel : Nat)
    (hf : nodesE m ≤ fuel) (hwf : valueEntriesWF m = true)
    (hsort : keysSortedFrom prev (m.map Prod.fst) = true) :
    parseMapB fuel m.length prev (encodeEntries m ++ rest) = some rest := by
  match m with
  | [] => simp [encodeEntries, parseMapB]
  | (k, v) :: t =>
    match fuel with
    | 0 => simp [nodesE] at hf
    | f+1 =>
      have hfv : nodesV v ≤ f := by simp [nodesE] at hf; omega
      have hft : nodesE t ≤ f := by simp [nodesE] at hf; omega
      have hwv : valueWF v = true := by simp [valueEntriesWF] at hwf; exact hwf.1
      have hwt : valueEntriesWF t = true := by simp [valueEntriesWF] at hwf; exact hwf.2
      have step : encodeEntries ((k, v) :: t) ++ rest =
          3 :: k.length :: (k ++ (encodeValue v ++ (encodeEntries t ++ rest))) := by
        simp [encodeEntries, encodeStr]
      rw [step, List.length_cons]
      have hlen : k.length ≤ (k ++ (encodeValue v ++ (encodeEntries t ++ rest))).length := by
        simp
      cases prev with
      | none =>
        have hsort2 : keysSortedFrom (some k) (t.map Prod.fst) = true := by
          simpa [keysSortedFrom] using hsort
        have hrec := parseMapB_encodeEntries t (some k) rest f hft hwt hsort2
        simp [parseMapB, hlen, List.take_left, List.drop_left,
          parseValB_encode v (encodeEntries t ++ rest) f hfv hwv, hrec]
      | some p =>
        simp only [List.map_cons, keysSortedFrom, Bool.and_eq_true] at hsort
        have hrec := parseMapB_encodeEntries t (some k) rest f hft hwt hsort.2
        simp [parseMapB, hlen, List.take_left, List.drop_left, hsort.1,
          parseValB_encode v (encodeEntries t ++ rest) f hfv hwv, hrec]
termination_by sizeOf m
end

mutual
theorem nodesV_le (v : Value) : nodesV v + 1 ≤ 2 * (encodeValue v).length := by
  match v with
  | .nullV => simp [nodesV, encodeValue]
  | .boolV b => simp [nodesV, encodeValue]
  | .intV i => simp [nodesV, encodeValue]
  | .strV s => simp [nodesV, encodeValue, encodeStr]
  | .hashV h => simp [nodesV, encodeValue]
  | .timeV t => simp [nodesV, encodeValue]
  | .arrayV l =>
    have := nodesL_le l
    simp only [nodesV, encodeValue, List.length_cons]
    omega
  | .mapV m =>
    have := nodesE_le m
    simp only [nodesV, encodeValue, List.length_cons]
    omega
termination_by sizeOf v
theorem nodesL_le (l : List Value) : nodesL l ≤ 2 * (encodeList l).length + 1 := by
  match l with
  | [] => simp [nodesL, encodeList]
  | v :: t =>
    have h1 := nodesV_le v
    have h2 := nodesL_le t
    simp only [nodesL, encodeList, List.length_append]
    omega
termination_by sizeOf l
theorem nodesE_le (m : List (List Nat × Value)) :
    nodesE m ≤ 2 * (encodeEntries m).length + 1 := by
  match m with
  | [] => simp [nodesE, encodeEntries]
  | (k, v) :: t =>
    have h1 := nodesV_le v
    have h2 := nodesE_le t
    simp only [nodesE, encodeEntries, encodeStr, List.length_append, List.length_cons]
    omega
termination_by sizeOf m
end

/-- Round trip at the `verify_value` level: the verifier consumes exactly
the canonical encoding of a well-formed value off the front of any byte
sequence. -/
theorem verifyValue_encode (v : Value) (rest : List Nat) (hwf : valueWF v = true) :
    verifyValue (encodeValue v ++ rest) = some (encodeValue v).length := by
  have hd : nodesV v ≤ 2 * (encodeValue v ++ rest).length + 1 := by
    have h1 := nodesV_le v
    simp only [List.length_append]
    omega
  unfold verifyValue
  rw [parseValB_encode v rest _ hd hwf]
  simp

/-- A body without a schema hash never parses as one, no matter what bytes
(signatures) follow its encoding. -/
theorem parseSchemaHashFull_encode_none (body : Value) (tail : List Nat)
    (h : hasSchemaHash body = false) :
    parseSchemaHashFull (encodeValue body ++ tail) = none := by
  match body with
  | .nullV | .boolV _ | .intV _ | .strV _ | .hashV _ | .timeV _ | .arrayV _ =>
    simp [encodeValue, encodeStr, parseSchemaHashFull]
  | .mapV [] => simp [encodeValue, encodeEntries, parseSchemaHashFull]
  | .mapV ((k, v) :: t) =>
    cases k with
    | cons a as => simp [encodeValue, encodeEntries, encodeStr, parseSchemaHashFull]
    | nil =>
      match v with
      | .nullV | .boolV _ | .intV _ | .strV _ | .timeV _ | .arrayV _ | .mapV _ =>
        simp [encodeValue, encodeEntries, encodeStr, parseSchemaHashFull]
      | .hashV hh => simp [hasSchemaHash] at h

theorem parseSchemaHash_encode_none (body : Value) (tail : List Nat)
    (h : hasSchemaHash body = false) :
    parseSchemaHash (encodeValue body ++ tail) = none := by
  simp [parseSchemaHash, parseSchemaHashFull_encode_none body tail h]

/-- Modelled from the spec: zstd as an opaque but perfect compression
primitive; the frame records its content size in its header, the level is
accepted but does not affect correctness. -/
def zstdCompress (_level : Int) (raw : List Nat) : List Nat :=
  raw.length :: raw

/-- Modelled from the spec: `zstd_safe::get_frame_content_size`; on garbage
it reports the (huge) `ZSTD_CONTENTSIZE_ERROR` value, which every size
check rejects. -/
def zstdFrameContentSize : List Nat → Nat
  | [] => 18446744073709551614
  | len :: _ => len

/-- Modelled from the spec: zstd decompression, failing on malformed
frames. -/
def zstdDecompress : List Nat → Option (List Nat)
  | [] => none
  | len :: payload => if payload.length = len then some payload else none

theorem zstd_roundtrip (level : Int) (raw : List Nat) :
    zstdDecompress (zstdCompress level raw) = some raw := by
  simp [zstdCompress, zstdDecompress]

/-- Translated from `NoSchema::decode_raw` (src/no_schema.rs): reads the
CompressType byte and returns the raw body plus the cached compressed form.
Byte 0 is Uncompressed, 1 is CompressedNoSchema, 2 and 3 (Compressed,
DictCompressed) need a schema and are rejected; anything else is invalid. -/
def decode_raw (max_size : Nat) (buf : List Nat) :
    Except String (List Nat × Option (List Nat)) :=
  match buf with
  | [] => Except.error "Unable to read compression type"
  | ct :: rest =>
    if ct = 0 then
      if rest.length > max_size then
        Except.error "Data is larger than maximum allowed size"
      else Except.ok (rest, none)
    else if ct = 1 then
      if zstdFrameContentSize rest > max_size then
        Except.error "Expected decompressed size is larger than maximum allowed size"
      else
        match zstdDecompress rest with
        | none => Except.error "Decompression failed"
        | some doc => Except.ok (doc, some (1 :: rest))
    else if ct = 2 ∨ ct = 3 then
      Except.error "Data uses a schema, but NoSchema struct was used for decoding"
    else Except.error "Invalid compression type"

/-- Translated from the signature loop of `NoSchema::trusted_decode_doc` /
`trusted_decode_entry`: parse the appended signatures without verifying
them.  Fuel only guards termination; it is irrelevant once it is at least
the length of the tail, since every signature consumes five symbols. -/
def parseSigs (fuel : Nat) (b : List Nat) (msg : String) :
    Except String (List Signature) :=
  match fuel, b with
  | _, [] => Except.ok []
  | 0, _ :: _ => Except.error msg
  | fuel+1, b =>
    match sigDecode b with
    | some (s, rest) =>
      match parseSigs fuel rest msg with
      | Except.ok t => Except.ok (s :: t)
      | Except.error e => Except.error e
    | none => Except.error msg

/-- Translated from the signature loop of `NoSchema::decode_doc` /
`decode_entry`: parse each signature and verify it against the recomputed
body hash, collecting the signer identities. -/
def parseVerifySigs (fuel : Nat) (b : List Nat) (h : Hash)
    (msgParse msgVerify : String) : Except String (List Identity) :=
  match fuel, b with
  | _, [] => Except.ok []
  | 0, _ :: _ => Except.error msgParse
  | fuel+1, b =>
    match sigDecode b with
    | some (s, rest) =>
      if s.verify h then
        match parseVerifySigs fuel rest h msgParse msgVerify with
        | Except.ok t => Except.ok (s.signed_by :: t)
        | Except.error e => Except.error e
      else Except.error msgVerify
    | none => Except.error msgParse

/-- The byte form of an appended signature tail. -/
def sigsBytes (sigs : List Signature) : List Nat :=
  (sigs.map sigEncode).flatten

theorem sigsBytes_cons (s : Signature) (t : List Signature) :
    sigsBytes (s :: t) = sigEncode s ++ sigsBytes t := by
  simp [sigsBytes]

theorem sigsBytes_length (sigs : List Signature) :
    (sigsBytes sigs).length = 5 * sigs.length := by
  induction sigs with
  | nil => simp [sigsBytes]
  | cons s t ih =>
    rw [sigsBytes_cons]
    simp only [List.length_append, sigEncode_length, ih, List.length_cons]
    omega

theorem parseSigs_sigsBytes (sigs : List Signature) (fuel : Nat) (m : String)
    (hv : ∀ s ∈ sigs, s.version = 1) (hf : sigs.length ≤ fuel) :
    parseSigs fuel (sigsBytes sigs) m = Except.ok sigs := by
  induction sigs generalizing fuel with
  | nil => simp [sigsBytes, parseSigs]
  | cons s t ih =>
    match fuel with
    | 0 => exact absurd hf (by simp)
    | f+1 =>
      have hs : s.version = 1 := hv s (by simp)
      have hb := sigsBytes_cons s t
      have hd := sigDecode_sigEncode s (sigsBytes t) hs
      have hft : t.length ≤ f := by simp at hf; omega
      have ht := ih f (fun x hx => hv x (List.mem_cons_of_mem _ hx)) hft
      rw [hb]
      cases s with
      | mk sv signer sh =>
        simp only [sigEncode, List.cons_append, List.nil_append] at hd ⊢
        simp [parseSigs, hd, ht]

theorem parseSigs_fuel (f1 f2 : Nat) (b : List Nat) (m : String)
    (h1 : b.length ≤ f1) (h2 : b.length ≤ f2) :
    parseSigs f1 b m = parseSigs f2 b m := by
  induction f1 generalizing b f2 with
  | zero =>
    match b with
    | [] => simp [parseSigs]
    | _ :: _ => exact absurd h1 (by simp)
  | succ f ih =>
    match b with
    | [] => simp [parseSigs]
    | x :: xs =>
      match f2 with
      | 0 => exact absurd h2 (by simp)
      | g+1 =>
        simp only [parseSigs]
        cases hd : sigDecode (x :: xs) with
        | none => rfl
        | some p =>
          obtain ⟨s, rest⟩ := p
          have hlen := sigDecode_shorter hd
          have hr1 : rest.length ≤ f := by simp at hlen h1 ⊢; omega
          have hr2 : rest.length ≤ g := by simp at hlen h2 ⊢; omega
          simp only [ih g rest hr1 hr2]

theorem parseVerifySigs_ok_of_parseSigs (fuel : Nat) (b : List Nat) (h : Hash)
    (m1 m2 m3 : String) (sigs : List Signature)
    (hp : parseSigs fuel b m3 = Except.ok sigs)
    (hv : ∀ s ∈ sigs, s.verify h = true) :
    parseVerifySigs fuel b h m1 m2 = Except.ok (sigs.map Signature.signed_by) := by
  induction fuel generalizing b sigs with
  | zero =>
    match b with
    | [] =>
      simp [parseSigs] at hp
      subst hp
      simp [parseVerifySigs]
    | _ :: _ => simp [parseSigs] at hp
  | succ f ih =>
    match b with
    | [] =>
      simp [parseSigs] at hp
      subst hp
      simp [parseVerifySigs]
    | x :: xs =>
      simp only [parseSigs] at hp
      cases hd : sigDecode (x :: xs) with
      | none => simp [hd] at hp
      | some p =>
        obtain ⟨s, rest⟩ := p
        simp only [hd] at hp
        cases hr : parseSigs f rest m3 with
        | error e => simp [hr] at hp
        | ok t =>
          simp only [hr] at hp
          cases hp
          have hvs : s.verify h = true := hv s (by simp)
          have hvt : ∀ x ∈ t, x.verify h = true := fun x hx => hv x (by simp [hx])
          simp only [parseVerifySigs, hd, hvs, if_true, ih rest t hr hvt]
          simp

theorem parseVerifySigs_err_of_parseSigs_err (fuel : Nat) (b : List Nat) (h : Hash)
    (m1 m2 m3 : String) (e : String)
    (hp : parseSigs fuel b m3 = Except.error e) :
    ∃ e2, parseVerifySigs fuel b h m1 m2 = Except.error e2 := by
  induction fuel generalizing b e with
  | zero =>
    match b with
    | [] => simp [parseSigs] at hp
    | _ :: _ => exact ⟨m1, by simp [parseVerifySigs]⟩
  | succ f ih =>
    match b with
    | [] => simp [parseSigs] at hp
    | x :: xs =>
      simp only [parseSigs] at hp
      cases hd : sigDecode (x :: xs) with
      | none => exact ⟨m1, by simp [parseVerifySigs, hd]⟩
      | some p =>
        obtain ⟨s, rest⟩ := p
        simp only [hd] at hp
        cases hr : parseSigs f rest m3 with
        | error e' =>
          obtain ⟨e2, he2⟩ := ih rest e' hr
          by_cases hvs : s.verify h = true
          · exact ⟨e2, by simp [parseVerifySigs, hd, hvs, he2]⟩
          · exact ⟨m2, by simp [parseVerifySigs, hd, hvs]⟩
        | ok t => simp [hr] at hp
  
theorem parseVerifySigs_err_of_bad_sig (fuel : Nat) (b : List Nat) (h : Hash)
    (m1 m2 m3 : String) (sigs : List Signature) (s0 : Signature)
    (hp : parseSigs fuel b m3 = Except.ok sigs)
    (hmem : s0 ∈ sigs) (hbad : s0.verify h = false) :
    ∃ e2, parseVerifySigs fuel b h m1 m2 = Except.error e2 := by
  induction fuel generalizing b sigs with
  | zero =>
    match b with
    | [] =>
      simp [parseSigs] at hp
      subst hp
      simp at hmem
    | _ :: _ => simp [parseSigs] at hp
  | succ f ih =>
    match b with
    | [] =>
      simp [parseSigs] at hp
      subst hp
      simp at hmem
    | x :: xs =>
      simp only [parseSigs] at hp
      cases hd : sigDecode (x :: xs) with
      | none => simp [hd] at hp
      | some p =>
        obtain ⟨s, rest⟩ := p
        simp only [hd] at hp
        cases hr : parseSigs f rest m3 with
        | error e => simp [hr] at hp
        | ok t =>
          simp only [hr] at hp
          cases hp
          by_cases hvs : s.verify h = true
          · rcases List.mem_cons.mp hmem with h0 | h0
            · subst h0
              rw [hvs] at hbad
              cases hbad
            · obtain ⟨e2, he2⟩ := ih rest t hr h0
              exact ⟨e2, by simp [parseVerifySigs, hd, hvs, he2]⟩
          · exact ⟨m2, by simp [parseVerifySigs, hd, hvs]⟩

/-- Modelled from the spec: the immutable Document container (§3): raw
canonical body bytes followed by appended signatures, the pre-signature
`doc_hash`, the outward `hash`, the signer list and an optional cached
compressed form. -/
structure Document where
  hash_state : Option HashState
  doc_hash : Option Hash
  hash : Hash
  doc_len : Nat
  doc : List Nat
  compressed : Option (List Nat)
  signed_by : List Identity
deriving DecidableEq, Repr

def Document.from_parts (hash_state : Option HashState) (doc_hash : Option Hash)
    (hash : Hash) (doc_len : Nat) (doc : List Nat) (compressed : Option (List Nat))
    (signed_by : List Identity) : Document :=
  ⟨hash_state, doc_hash, hash, doc_len, doc, compressed, signed_by⟩

def Document.raw_doc (d : Document) : List Nat := d.doc

def Document.len (d : Document) : Nat := d.doc.length

/-- Modelled from the spec: `Document::schema_hash()`, present iff the
body's empty-string key maps to a Hash. -/
def Document.schema_hash (d : Document) : Option Hash :=
  parseSchemaHash d.doc

/-- Modelled from the spec: equality of documents is decided by the outward
hash, the object's identity (mirroring the crate's `PartialEq` style). -/
def docEq (a b : Document) : Bool :=
  decide (a.hash = b.hash)

/-- A well-formed Document built from a canonical body value and a list of
appended signatures, exactly as `Document::new` followed by `sign` calls
would build it: `doc_hash` covers the body bytes only, `hash` covers body
plus signature tail. -/
def mkWFDoc (body : Value) (sigs : List Signature) : Document :=
  let raw0 := encodeValue body
  let raw := raw0 ++ sigsBytes sigs
  { hash_state := some ⟨raw⟩
    doc_hash := some ⟨1, digestOf raw0⟩
    hash := ⟨1, digestOf raw⟩
    doc_len := raw0.length
    doc := raw
    compressed := none
    signed_by := sigs.map Signature.signed_by }

namespace NoSchema

/-- Translated from `NoSchema::encode_doc` (src/no_schema.rs): CompressType
byte 0 followed by the raw document; the source asserts the size bound,
which the embedding surfaces as `none`. -/
def encode_doc (d : Document) : Option (List Nat) :=
  if d.len ≤ MAX_DOC_SIZE then some (0 :: d.raw_doc) else none

/-- Translated from `NoSchema::compress_doc` (src/no_schema.rs): byte 2 and
an uncompressed schema-hash header when the document has a schema, byte 1
otherwise; the body is zstd-compressed.  `none` models the `expect` panics
on a corrupt document vector. -/
def compress_doc (d : Document) (level : Int) : Option (List Nat) :=
  if (d.schema_hash).isSome then
    match parseSchemaHashFull d.raw_doc with
    | some (_, header_len) =>
      some (2 :: (d.raw_doc.take header_len ++ zstdCompress level (d.raw_doc.drop header_len)))
    | none => none
  else
    some (1 :: zstdCompress level d.raw_doc)

/-- Translated from `NoSchema::trusted_decode_doc` (src/no_schema.rs):
decode the envelope, find the body length, compute hashes only when no hash
was supplied, and collect the signers without verifying signatures. -/
def trusted_decode_doc (buf : List Nat) (hash? : Option Hash) : Except String Document :=
  match decode_raw MAX_DOC_SIZE buf with
  | Except.error e => Except.error e
  | Except.ok (doc, compressed) =>
    match verifyValue doc with
    | none => Except.error "Invalid value"
    | some doc_len =>
      let state :=
        match hash? with
        | some h => (none, none, h)
        | none =>
          let hs := HashState.new.update (doc.take doc_len)
          let doc_hash := hs.get_hash
          if doc.length > doc_len then
            let hs2 := hs.update (doc.drop doc_len)
            (some hs2, some doc_hash, hs2.get_hash)
          else (some hs, some doc_hash, doc_hash)
      match parseSigs doc.length (doc.drop doc_len) "Invalid signature in raw document" with
      | Except.error e => Except.error e
      | Except.ok sigs =>
        Except.ok (Document.from_parts state.1 state.2.1 state.2.2 doc_len doc compressed
          (sigs.map Signature.signed_by))

/-- Translated from `NoSchema::decode_doc` (src/no_schema.rs): strict
decoding; rejects a schema hash in the body, always recomputes the hashes,
and verifies every appended signature against `doc_hash`. -/
def decode_doc (buf : List Nat) : Except String Document :=
  match decode_raw MAX_DOC_SIZE buf with
  | Except.error e => Except.error e
  | Except.ok (doc, compressed) =>
    if (parseSchemaHash doc).isSome then
      Except.error "Document has a schema"
    else
      match verifyValue doc with
      | none => Except.error "Invalid value"
      | some doc_len =>
        let hs := HashState.new.update (doc.take doc_len)
        let doc_hash := hs.get_hash
        let hs_hash :=
          if doc.length > doc_len then
            let hs2 := hs.update (doc.drop doc_len)
            (hs2, hs2.get_hash)
          else (hs, doc_hash)
        match parseVerifySigs doc.length (doc.drop doc_len) doc_hash
            "Invalid signature in raw document" "Signature doesn't verify against document" with
        | Except.error e => Except.error e
        | Except.ok signed_by =>
          Except.ok (Document.from_parts (some hs_hash.1) (some doc_hash) hs_hash.2 doc_len doc
            compressed signed_by)

end NoSchema

/-- Translated from `Entry` (src/entry.rs): a fog-pack value with an
associated parent document hash and field, carrying its incremental hash
state, pre-signature `entry_hash`, outward `hash`, raw bytes (body then
signature tail), signer list and cached compressed form. -/
structure Entry where
  hash_state : Option HashState
  entry_hash : Option Hash
  hash : Hash
  doc : Hash
  field : List Nat
  entry_len : Nat
  entry : List Nat
  signed_by : List Identity
  compressed : Option (List Nat)
deriving DecidableEq, Repr

/-- Translated from `impl PartialEq for Entry` (src/entry.rs): entries are
equal exactly when their outward hashes match. -/
def Entry.beq (a b : Entry) : Bool :=
  decide (a.hash = b.hash)

def Entry.from_parts (hash_state : Option HashState) (entry_hash : Option Hash)
    (hash : Hash) (doc : Hash) (field : List Nat) (entry_len : Nat) (entry : List Nat)
    (signed_by : List Identity) (compressed : Option (List Nat)) : Entry :=
  ⟨hash_state, entry_hash, hash, doc, field, entry_len, entry, signed_by, compressed⟩

/-- The bytes fed into the entry hash state ahead of the entry body: the
parent document hash and the field, each re-encoded as a top-level value. -/
def entryPrefix (doc : Hash) (field : List Nat) : List Nat :=
  encodeValue (.hashV doc) ++ encodeValue (.strV field)

/-- Translated from `Entry::populate_hash_state` (src/entry.rs): one hash
state is fed the encoded parent hash, the encoded field, and the body
bytes; `entry_hash` snapshots there, and the signature tail (if any)
extends the state into `hash`. -/
def Entry.populate_hash_state (e : Entry) : Entry :=
  let hs := HashState.new
  let hs := hs.update (encodeValue (.hashV e.doc))
  let hs := hs.update (encodeValue (.strV e.field))
  let hs := hs.update (e.entry.take e.entry_len)
  let entry_hash := hs.get_hash
  if e.entry.length > e.entry_len then
    let hs2 := hs.update (e.entry.drop e.entry_len)
    { e with hash_state := some hs2, entry_hash := some entry_hash, hash := hs2.get_hash }
  else
    { e with hash_state := some hs, entry_hash := some entry_hash, hash := entry_hash }

/-- Translated from `Entry::new` (src/entry.rs): encode the value, fail if
it exceeds `MAX_ENTRY_SIZE`, and populate the hash state. -/
def Entry.new (doc : Hash) (field : List Nat) (v : Value) : Option Entry :=
  let entry := encodeValue v
  let entry_len := entry.length
  if entry_len > MAX_ENTRY_SIZE then none
  else some (Entry.populate_hash_state
    ⟨none, none, Hash.new_empty, doc, field, entry_len, entry, [], none⟩)

/-- Translated from `Entry::sign` (src/entry.rs).  The `&mut self` receiver
becomes an explicit result state: the returned Entry is the object as the
method leaves it, paired with the `Result`.  Note the source pushes the
signer and appends the encoded signature *before* the size check, so a
size failure leaves those behind. -/
def Entry.sign (e0 : Entry) (vault : Vault) (key : Key) : Entry × Except CryptoError Unit :=
  let e := if e0.hash_state.isNone || e0.entry_hash.isNone then e0.populate_hash_state else e0
  match vault.sign (e.entry_hash.getD Hash.new_empty) key with
  | Except.error err => (e, Except.error err)
  | Except.ok signature =>
    let e := { e with signed_by := e.signed_by ++ [signature.signed_by] }
    let len := e.entry.length
    let e := { e with entry := e.entry ++ sigEncode signature }
    let new_len := e.entry.length
    if new_len > MAX_ENTRY_SIZE then
      (e, Except.error (CryptoError.Io "Entry is too large with signature"))
    else if new_len > len then
      let hs := (e.hash_state.getD HashState.new).update (e.entry.drop len)
      ({ e with hash_state := some hs, hash := hs.get_hash, compressed := none }, Except.ok ())
    else ({ e with compressed := none }, Except.ok ())

def Entry.len (e : Entry) : Nat := e.entry.length

def Entry.raw_entry (e : Entry) : List Nat := e.entry

namespace NoSchema

/-- Translated from `NoSchema::encode_entry` (src/no_schema.rs):
CompressType byte 0 followed by the raw entry (body plus signatures);
`none` models the size assertion. -/
def encode_entry (e : Entry) : Option (List Nat) :=
  if e.len ≤ MAX_ENTRY_SIZE then some (0 :: e.raw_entry) else none

/-- Translated from `NoSchema::compress_entry` (src/no_schema.rs). -/
def compress_entry (e : Entry) (level : Int) : List Nat :=
  1 :: zstdCompress level e.raw_entry

/-- Translated from `NoSchema::trusted_decode_entry` (src/no_schema.rs):
like `trusted_decode_doc` but for entries; when a hash is supplied it is
stored as-is and the hash state is not populated. -/
def trusted_decode_entry (buf : List Nat) (doc : Hash) (field : List Nat)
    (hash? : Option Hash) : Except String Entry :=
  match decode_raw MAX_ENTRY_SIZE buf with
  | Except.error e => Except.error e
  | Except.ok (entry, compressed) =>
    match verifyValue entry with
    | none => Except.error "Invalid value"
    | some entry_len =>
      let hash_provided := hash?.isSome
      let hash := hash?.getD Hash.new_empty
      match parseSigs entry.length (entry.drop entry_len) "Invalid signature in raw document" with
      | Except.error e => Except.error e
      | Except.ok sigs =>
        let e := Entry.from_parts none none hash doc field entry_len entry
          (sigs.map Signature.signed_by) compressed
        Except.ok (if hash_provided then e else e.populate_hash_state)

/-- Translated from `NoSchema::decode_entry` (src/no_schema.rs): strict
decoding; recomputes `entry_hash` from the parent hash, field and body,
and verifies every appended signature against it. -/
def decode_entry (buf : List Nat) (doc : Hash) (field : List Nat) : Except String Entry :=
  match decode_raw MAX_ENTRY_SIZE buf with
  | Except.error e => Except.error e
  | Except.ok (entry, compressed) =>
    match verifyValue entry with
    | none => Except.error "Invalid value"
    | some entry_len =>
      let hs := HashState.new
      let hs := hs.update (encodeValue (.hashV doc))
      let hs := hs.update (encodeValue (.strV field))
      let hs := hs.update (entry.take entry_len)
      let entry_hash := hs.get_hash
      let hs_hash :=
        if entry.length > entry_len then
          let hs2 := hs.update (entry.drop entry_len)
          (hs2, hs2.get_hash)
        else (hs, entry_hash)
      match parseVerifySigs entry.length (entry.drop entry_len) entry_hash
          "Invalid signature in raw entry" "Signature doesn't verify against entry" with
      | Except.error e => Except.error e
      | Except.ok signed_by =>
        Except.ok (Entry.from_parts (some hs_hash.1) (some entry_hash) hs_hash.2 doc field
          entry_len entry signed_by compressed)

end NoSchema

/-- Modelled from the spec: the Poly1305 authentication tag length in
bytes. -/
def tagLen : Nat := 16

/-- Modelled from the spec: a symmetric stream key (version, stream id,
secret key; fixed-width fields are single symbols). -/
structure FullStreamKey where
  version : Nat
  id : Nat
  key : Nat
deriving DecidableEq, Repr

def FullStreamKey.get_version (k : FullStreamKey) : Nat := k.version

def FullStreamKey.get_id (k : FullStreamKey) : Nat := k.id

def FullStreamKey.get_key (k : FullStreamKey) : Nat := k.key

/-- Modelled from the spec: a full identity keypair used by
`Lock::from_identity`; `id` is the public signing key. -/
structure FullIdentity where
  version : Nat
  id : Nat
deriving DecidableEq, Repr

/-- Modelled from the spec: idealized X25519 exchange producing the shared
stream key from a public key and an ephemeral secret. -/
def calcStreamKey (pk esk : Nat) : Nat := Nat.pair pk esk

/-- Translated from `LockType` (src/crypto/lock.rs). -/
inductive LockType where
  | identity (pk : Nat) (epk : Nat)
  | stream (id : Nat)
deriving DecidableEq, Repr

/-- Translated from `Lock` (src/crypto/lock.rs): version, lock type, secret
key, nonce, and the `decoded` flag marking the KEYED state. -/
structure Lock where
  version : Nat
  type_id : LockType
  key : Nat
  nonce : Nat
  decoded : Bool
deriving DecidableEq, Repr

/-- Modelled from the spec: idealized Poly1305 tag, a 16-byte deterministic
function of ciphertext, associated data, nonce and key. -/
def mkTag (cipher ad : List Nat) (nonce key : Nat) : List Nat :=
  [nonce, key, ad.length, ad.sum, cipher.length, cipher.sum] ++ List.replicate 10 0

theorem mkTag_length (cipher ad : List Nat) (nonce key : Nat) :
    (mkTag cipher ad nonce key).length = tagLen := by
  simp [mkTag, tagLen]

/-- Modelled from the spec: AEAD encryption; the XChaCha20 keystream is
abstracted away (ciphertext equals message over the abstract alphabet) and
the Poly1305 tag authenticates ciphertext plus associated data. -/
def aead_encrypt (message ad : List Nat) (nonce key : Nat) : List Nat × List Nat :=
  (message, mkTag message ad nonce key)

/-- Modelled from the spec: AEAD tag verification. -/
def aead_decrypt (cipher ad tag : List Nat) (nonce key : Nat) : Bool :=
  decide (tag = mkTag cipher ad nonce key)

/-- Rust `usize` subtraction as it behaves in the source: on underflow the
program panics (debug) or produces an out-of-range slice index that panics
at the following slice operation (release); either way the call never
returns, which the embedding records as `none`. -/
def rustSub (a b : Nat) : Option Nat :=
  if b ≤ a then some (a - b) else none

/-- Translated from `Lock::from_stream` (src/crypto/lock.rs); the RNG draw
for the nonce is an explicit argument (the spec treats the RNG as an
external collaborator). -/
def Lock.from_stream (k : FullStreamKey) (nonce : Nat) : Except CryptoError Lock :=
  if k.get_version ≠ 1 then Except.error CryptoError.UnsupportedVersion
  else Except.ok ⟨k.get_version, LockType.stream k.get_id, k.get_key, nonce, true⟩

/-- Translated from `Lock::from_identity` (src/crypto/lock.rs); the nonce
and the ephemeral secret key are explicit RNG arguments, and the ephemeral
public key of the idealized exchange is the secret itself. -/
def Lock.from_identity (id : FullIdentity) (nonce esk : Nat) :
    Except CryptoError (Lock × FullStreamKey) :=
  if id.version ≠ 1 then Except.error CryptoError.UnsupportedVersion
  else
    let epk := esk
    let shared := calcStreamKey id.id esk
    let k : FullStreamKey := ⟨1, shared, shared⟩
    Except.ok (⟨id.version, LockType.identity id.id epk, k.get_key, nonce, true⟩, k)

def Lock.encrypt_len (_l : Lock) (message_len : Nat) : Nat :=
  message_len + tagLen

/-- Translated from `Lock::encrypt` (src/crypto/lock.rs).  The receiver is
`&self` in the source: encryption neither consumes nor modifies the lock,
so the embedding returns only the output buffer. -/
def Lock.encrypt (l : Lock) (message ad out : List Nat) :
    Except CryptoError (List Nat) :=
  if !l.decoded then Except.error CryptoError.BadKey
  else
    let et := aead_encrypt message ad l.nonce l.key
    Except.ok (out ++ et.1 ++ et.2)

/-- Translated from `Lock::decrypt` (src/crypto/lock.rs).  The source
computes `crypt.len() - Tag::len()` on `usize` and then slices with the
result; `none` is the panic on inputs shorter than the tag. -/
def Lock.decrypt (l : Lock) (crypt ad out : List Nat) :
    Option (Except CryptoError (List Nat)) :=
  if !l.decoded then some (Except.error CryptoError.BadKey)
  else
    match rustSub crypt.length tagLen with
    | none => none
    | some m_len =>
      let message := crypt.take m_len
      let tag := crypt.drop m_len
      if aead_decrypt message ad tag l.nonce l.key then some (Except.ok (out ++ message))
      else some (Except.error CryptoError.DecryptFailed)

/-- Translated from `Lock::needs` (src/crypto/lock.rs). -/
def Lock.needs (l : Lock) : Option LockType :=
  if l.decoded then none else some l.type_id

/-- Translated from `Lock::decode_stream` (src/crypto/lock.rs). -/
def Lock.decode_stream (l : Lock) (k : FullStreamKey) : Lock × Except CryptoError Unit :=
  match l.type_id with
  | LockType.identity _ _ => (l, Except.error CryptoError.BadKey)
  | LockType.stream v =>
    if v ≠ k.get_id ∨ l.version ≠ k.get_version then (l, Except.error CryptoError.BadKey)
    else ({ l with key := k.get_key, decoded := true }, Except.ok ())

/-- Modelled from the spec: the streaming parser elements (element.rs is a
collaborator of the validators); container elements carry their length and
are followed by their contents in the stream. -/
inductive Elem where
  | nullE : Elem
  | boolE : Bool → Elem
  | intE : Int → Elem
  | strE : List Nat → Elem
  | hashE : Hash → Elem
  | timeE : Timestamp → Elem
  | arrayE : Nat → Elem
  | mapE : Nat → Elem
deriving DecidableEq, Repr

mutual
/-- The element stream of a Value, the parser view the validators consume. -/
def elemsV : Value → List Elem
  | .nullV => [.nullE]
  | .boolV b => [.boolE b]
  | .intV i => [.intE i]
  | .strV s => [.strE s]
  | .hashV h => [.hashE h]
  | .timeV t => [.timeE t]
  | .arrayV l => .arrayE l.length :: elemsL l
  | .mapV m => .mapE m.length :: elemsM m
def elemsL : List Value → List Elem
  | [] => []
  | v :: t => elemsV v ++ elemsL t
def elemsM : List (List Nat × Value) → List Elem
  | [] => []
  | (k, v) :: t => .strE k :: (elemsV v ++ elemsM t)
end

/-- Skip `n` whole values from an element stream (container elements add
their contents to the count); `none` on a truncated stream. -/
def skipElems (n : Nat) (p : List Elem) : Option (List Elem) :=
  match n, p with
  | 0, p => some p
  | _+1, [] => none
  | n+1, e :: rest =>
    match e with
    | .arrayE len => skipElems (n + len) rest
    | .mapE len => skipElems (n + 2 * len) rest
    | _ => skipElems n rest
termination_by structural p

mutual
/-- Structural equality of values, as the validators' `==` on
materialized `Vec<Value>`. -/
def beqV : Value → Value → Bool
  | .nullV, .nullV => true
  | .boolV a, .boolV b => a == b
  | .intV a, .intV b => a == b
  | .strV a, .strV b => a == b
  | .hashV a, .hashV b => decide (a = b)
  | .timeV a, .timeV b => decide (a = b)
  | .arrayV a, .arrayV b => beqL a b
  | .mapV a, .mapV b => beqM a b
  | _, _ => false
def beqL : List Value → List Value → Bool
  | [], [] => true
  | a :: as, b :: bs => beqV a b && beqL as bs
  | _, _ => false
def beqM : List (List Nat × Value) → List (List Nat × Value) → Bool
  | [], [] => true
  | (ka, va) :: as, (kb, vb) :: bs => ka == kb && beqV va vb && beqM as bs
  | _, _ => false
end

mutual
/-- Modelled from the spec: `FogDeserializer::from_parser` materializing
one value from the element stream (fuel bounds nesting depth). -/
def readVal (fuel : Nat) (p : List Elem) : Option (Value × List Elem) :=
  match fuel, p with
  | 0, _ => none
  | _+1, [] => none
  | f+1, e :: rest =>
    match e with
    | .nullE => some (.nullV, rest)
    | .boolE b => some (.boolV b, rest)
    | .intE i => some (.intV i, rest)
    | .strE s => some (.strV s, rest)
    | .hashE h => some (.hashV h, rest)
    | .timeE t => some (.timeV t, rest)
    | .arrayE len =>
      match readVals f len rest with
      | some (vs, rest') => some (.arrayV vs, rest')
      | none => none
    | .mapE len =>
      match readEntries f len rest with
      | some (m, rest') => some (.mapV m, rest')
      | none => none
termination_by structural fuel
def readVals (fuel : Nat) (n : Nat) (p : List Elem) : Option (List Value × List Elem) :=
  match fuel, n with
  | _, 0 => some ([], p)
  | 0, _+1 => none
  | f+1, n+1 =>
    match readVal f p with
    | some (v, p') =>
      match readVals f n p' with
      | some (vs, p'') => some (v :: vs, p'')
      | none => none
    | none => none
termination_by structural fuel
def readEntries (fuel : Nat) (n : Nat) (p : List Elem) :
    Option (List (List Nat × Value) × List Elem) :=
  match fuel, n with
  | _, 0 => some ([], p)
  | 0, _+1 => none
  | f+1, n+1 =>
    match p with
    | .strE k :: p' =>
      match readVal f p' with
      | some (v, p'') =>
        match readEntries f n p'' with
        | some (m, p''') => some ((k, v) :: m, p''')
        | none => none
      | none => none
    | _ => none
termination_by structural fuel
end

/-- Translated from `TimeValidator` (src/validator/time.rs). -/
structure TimeValidator where
  comment : List Nat
  default : Timestamp
  max : Timestamp
  min : Timestamp
  ex_max : Bool
  ex_min : Bool
  in_list : List Timestamp
  nin_list : List Timestamp
  query : Bool
  ord : Bool
deriving DecidableEq, Repr

/-- Translated from `impl Default for TimeValidator` (src/validator/time.rs). -/
def TimeValidator.mkDefault : TimeValidator :=
  ⟨[], Timestamp.zero, Timestamp.max_value, Timestamp.min_value, false, false, [], [], false, false⟩

def time_is_min (v : Timestamp) : Bool := decide (v = Timestamp.min_value)

def time_is_max (v : Timestamp) : Bool := decide (v = Timestamp.max_value)

/-- Translated from `TimeValidator::validate` (src/validator/time.rs):
expect a timestamp element, apply the (possibly exclusive) range bounds,
then the `in`/`nin` lists. -/
def TimeValidator.validate (tv : TimeValidator) (p : List Elem) : Except String (List Elem) :=
  match p with
  | [] => Except.error "Expected a timestamp"
  | e :: rest =>
    match e with
    | .timeE val =>
      let max_pass := if tv.ex_max then timeLt val tv.max else timeLe val tv.max
      let min_pass := if tv.ex_min then timeLt tv.min val else timeLe tv.min val
      if !max_pass then Except.error "Timestamp greater than maximum allowed"
      else if !min_pass then Except.error "Timestamp less than minimum allowed"
      else if tv.in_list.length > 0 && !(tv.in_list.any fun v => decide (v = val)) then
        Except.error "Timestamp is not on `in` list"
      else if tv.nin_list.any fun v => decide (v = val) then
        Except.error "Timestamp is on `nin` list"
      else Except.ok rest
    | _ => Except.error "Expected Time, got other element"

mutual
/-- Translated from `Validator` (validator/mod.rs is a collaborator; the
embedding keeps the variants the claims exercise: `Any`, `Time`, `Array`
and `Multi`). -/
inductive Validator where
  | any : Validator
  | time : TimeValidator → Validator
  | array : ArrayValidator → Validator
  | multi : List Validator → Validator
/-- Translated from `ArrayValidator` (src/validator/array.rs); the fields
appear in the source's declaration order (`pre` is the source's `prefix`
list, `arrayOk` the source's `array` permission bit). -/
inductive ArrayValidator where
  | mk : (comment : List Nat) → (contains : List Validator) → (items : Validator) →
      (pre : List Validator) → (max_len : Nat) → (min_len : Nat) →
      (in_list : List (List Value)) → (nin_list : List (List Value)) →
      (same_len : List Nat) → (unique : Bool) → (extend : Bool) → (query : Bool) →
      (arrayOk : Bool) → (contains_ok : Bool) → (unique_ok : Bool) → (size : Bool) →
      (same_len_ok : Bool) → ArrayValidator
end

/-- Translated from `impl Default for ArrayValidator`
(src/validator/array.rs): `items` is `Any`, `max_len` is `u32::MAX`, all
lists empty and all flags false. -/
def ArrayValidator.mkDefault : ArrayValidator :=
  .mk [] [] .any [] 4294967295 0 [] [] [] false false false false false false false false

def ArrayValidator.unique : ArrayValidator → Bool
  | .mk _ _ _ _ _ _ _ _ _ u _ _ _ _ _ _ _ => u

mutual
/-- Modelled from the spec: `Validator::validate` dispatch (§4.G.1): `Any`
consumes one value, `Multi` succeeds if any branch succeeds without leaking
parser state, and the typed variants run their own validators.  Fuel
guards recursion; exhaustion reports the dedicated recursion error. -/
def Validator.validate (fuel : Nat) (types : List (List Nat × Validator))
    (v : Validator) (p : List Elem) (cl : Option Unit) :
    Except String (List Elem × Option Unit) :=
  match fuel with
  | 0 => Except.error "recursion limit reached"
  | f+1 =>
    match v with
    | .any =>
      match skipElems 1 p with
      | some p' => Except.ok (p', cl)
      | none => Except.error "Expected a value"
    | .time tv =>
      match TimeValidator.validate tv p with
      | Except.ok p' => Except.ok (p', cl)
      | Except.error e => Except.error e
    | .array av => ArrayValidator.validate f types av p cl
    | .multi vs => multiLoop f types vs p cl
termination_by structural fuel
def multiLoop (fuel : Nat) (types : List (List Nat × Validator))
    (vs : List Validator) (p : List Elem) (cl : Option Unit) :
    Except String (List Elem × Option Unit) :=
  match fuel with
  | 0 => Except.error "recursion limit reached"
  | f+1 =>
    match vs with
    | [] => Except.error "no multi validator passed"
    | v :: rest =>
      match Validator.validate f types v p cl with
      | Except.ok r => Except.ok r
      | Except.error _ => multiLoop f types rest p cl
termination_by structural fuel
/-- Translated from `ArrayValidator::validate` (src/validator/array.rs):
length bounds first; if `unique`, `in` or `nin` is non-trivial the array is
materialized once from a clone of the parser taken before the header was
consumed; then the per-item loop runs. -/
def ArrayValidator.validate (fuel : Nat) (types : List (List Nat × Validator))
    (av : ArrayValidator) (p : List Elem) (cl : Option Unit) :
    Except String (List Elem × Option Unit) :=
  match fuel with
  | 0 => Except.error "recursion limit reached"
  | f+1 =>
    match av with
    | .mk _comment contains items pre max_len min_len in_l nin_l same_len unique
        _extend _query _arrayOk _contains_ok _unique_ok _size _same_len_ok =>
      let valStream := p
      match p with
      | [] => Except.error "Expected an array"
      | e :: p1 =>
        match e with
        | .arrayE len =>
          if len > max_len then
            Except.error "Array is longer than maximum allowed"
          else if len < min_len then
            Except.error "Array is shorter than minimum allowed"
          else
            let matCheck : Except String Unit :=
              if unique || !in_l.isEmpty || !nin_l.isEmpty then
                match readVal (2 * valStream.length + 1) valStream with
                | some (.arrayV arr, _) =>
                  if !in_l.isEmpty && !(in_l.any fun v => beqL v arr) then
                    Except.error "Array is not on `in` list"
                  else if nin_l.any fun v => beqL v arr then
                    Except.error "Array is on `nin` list"
                  else if unique &&
                      ((List.range arr.length).any fun index =>
                        match arr.drop index, arr.getD index .nullV with
                        | tail, lhs => tail.any fun rhs => beqV lhs rhs) then
                    Except.error "Array does not contain unique elements"
                  else Except.ok ()
                | _ => Except.error "Expected an array"
              else Except.ok ()
            match matCheck with
            | Except.error e => Except.error e
            | Except.ok () =>
              arrLoop f types items pre contains same_len 0 len p1 cl
                (List.replicate contains.length false) none 0
        | _ => Except.error "Expected Array, got other element"
termination_by structural fuel
/-- Translated from the item loop of `ArrayValidator::validate`
(src/validator/array.rs): speculative `contains` checks against the current
parser position, the `same_len` peek, then the item validator taken from
`prefix` (here `pre`) falling back to `items`; the post-loop `same_len`
count and `contains` completeness checks live in the `rem = 0` base case. -/
def arrLoop (fuel : Nat) (types : List (List Nat × Validator))
    (items : Validator) (pre : List Validator) (contains : List Validator)
    (same_len : List Nat) (i : Nat) (rem : Nat) (p : List Elem) (cl : Option Unit)
    (cres : List Bool) (alen : Option Nat) (alcnt : Nat) :
    Except String (List Elem × Option Unit) :=
  match fuel with
  | 0 => Except.error "recursion limit reached"
  | f+1 =>
    match rem with
    | 0 =>
      if alen.isSome && alcnt ≠ same_len.length then
        Except.error "Array had some, but not all, of the indices listed in `same_len`"
      else if !(cres.all id) then
        Except.error "Array was missing items satisfying `contains` list"
      else Except.ok (p, cl)
    | r+1 =>
      let step1 :=
        if !contains.isEmpty then containsCheck f types contains cres p cl
        else (cres, cl)
      let sameStep : Except String (Option Nat × Nat) :=
        if same_len.contains i then
          match p with
          | [] => Except.error "expected an array element"
          | e :: _ =>
            match e with
            | .nullE =>
              if alen.isSome then
                Except.error "some sub-arrays for `same_len` are present, but one is not"
              else Except.ok (alen, alcnt)
            | .arrayE l =>
              match alen with
              | some l0 =>
                if l0 ≠ l then
                  Except.error "expected array of equal length for `same_len` index"
                else Except.ok (alen, alcnt + 1)
              | none => Except.ok (some l, alcnt + 1)
            | _ => Except.error "`same_len` expected an array or null"
        else Except.ok (alen, alcnt)
      match sameStep with
      | Except.error e => Except.error e
      | Except.ok (alen', alcnt') =>
        match Validator.validate f types (pre.getD i items) p step1.2 with
        | Except.error e => Except.error e
        | Except.ok (p', cl') =>
          arrLoop f types items pre contains same_len (i + 1) r p' cl' step1.1 alen' alcnt'
termination_by structural fuel
/-- Translated from the `contains` speculation of
`ArrayValidator::validate` (src/validator/array.rs): each not-yet-satisfied
`contains` validator is tried against a clone of the parser; successes flip
the flag and keep the returned checklist. -/
def containsCheck (fuel : Nat) (types : List (List Nat × Validator))
    (vs : List Validator) (cres : List Bool) (p : List Elem) (cl : Option Unit) :
    List Bool × Option Unit :=
  match fuel with
  | 0 => (cres, cl)
  | f+1 =>
    match vs, cres with
    | [], _ => ([], cl)
    | _ :: _, [] => ([], cl)
    | v :: vrest, passed :: crest =>
      if passed then
        let t := containsCheck f types vrest crest p cl
        (true :: t.1, t.2)
      else
        match Validator.validate f types v p cl with
        | Except.ok (_, c) =>
          let t := containsCheck f types vrest crest p c
          (true :: t.1, t.2)
        | Except.error _ =>
          let t := containsCheck f types vrest crest p cl
          (false :: t.1, t.2)
termination_by structural fuel
end

/-- Translated from `TimeValidator::query_check_self`
(src/validator/time.rs): the schema's `query` bit gates the query's
`in`/`nin` lists, and its `ord` bit gates the query's range bounds. -/
def TimeValidator.query_check_self (s other : TimeValidator) : Bool :=
  (s.query || (other.in_list.isEmpty && other.nin_list.isEmpty))
    && (s.ord
      || (!other.ex_min && !other.ex_max && time_is_min other.min && time_is_max other.max))

/-- Translated from `TimeValidator::query_check` (src/validator/time.rs):
`Time` queries check directly, every branch of a `Multi` query must be a
passing `Time`, `Any` passes, anything else fails. -/
def TimeValidator.query_check (s : TimeValidator) (other : Validator) : Bool :=
  match other with
  | .time o => s.query_check_self o
  | .multi list =>
    list.all fun o =>
      match o with
      | .time o2 => s.query_check_self o2
      | _ => false
  | .any => true
  | _ => false

/-- The array validator of claim C1: `unique = true`, every other field at
its default. -/
def uniqueOnlyArrayValidator : ArrayValidator :=
  ArrayValidator.mk [] [] .any [] 4294967295 0 [] [] [] true false false false false false
    false false

/-- C1: the claim says an ArrayValidator with `unique = true` (all else
default) accepts an array exactly when its items are pairwise distinct, so
in particular any singleton array passes.  The code instead compares each
item against the tail that still contains the item itself
(`skip(index)` instead of `skip(index + 1)` in src/validator/array.rs), so
every item matches itself and every non-empty array is rejected — the
singleton `[5]` and the distinct pair `[1, 2]` both fail with the
uniqueness error, while the empty array passes. -/
theorem c1_unique_rejects_all_nonempty :
    Validator.validate 100 [] (.array uniqueOnlyArrayValidator)
        (elemsV (.arrayV [.intV 5])) none =
      Except.error "Array does not contain unique elements" ∧
    Validator.validate 100 [] (.array uniqueOnlyArrayValidator)
        (elemsV (.arrayV [.intV 1, .intV 2])) none =
      Except.error "Array does not contain unique elements" ∧
    Validator.validate 100 [] (.array uniqueOnlyArrayValidator)
        (elemsV (.arrayV [])) none = Except.ok ([], none) :=
  ⟨rfl, rfl, rfl⟩

/-- C9: a schema-side TimeValidator accepts a Time query validator exactly
when (its `query` flag is set, or the query's `in` and `nin` lists are
empty) and (its `ord` flag is set, or the query's `min`, `max`, `ex_min`
and `ex_max` are all at their defaults); with `query = false` and
`ord = false` only a query with all those fields at defaults passes. -/
theorem c9_time_query_check (s q : TimeValidator) :
    TimeValidator.query_check s (.time q) = true ↔
      ((s.query = true ∨ (q.in_list = [] ∧ q.nin_list = [])) ∧
       (s.ord = true ∨ (q.ex_min = false ∧ q.ex_max = false ∧
         q.min = Timestamp.min_value ∧ q.max = Timestamp.max_value))) := by
  simp only [TimeValidator.query_check, TimeValidator.query_check_self,
    time_is_min, time_is_max, Bool.and_eq_true, Bool.or_eq_true,
    Bool.not_eq_true', decide_eq_true_eq, List.isEmpty_iff]
  tauto

/-- C7: the claim says `Lock::decrypt` is total for every keyed lock and
ciphertext slice.  The code computes `crypt.len() - Tag::len()` on `usize`
and slices with the result, so any ciphertext shorter than the 16-byte
Poly1305 tag makes the subtraction underflow and the call panic (`none` in
the embedding): the empty slice and a 15-byte slice both panic on the lock
produced by `from_stream`. -/
theorem c7_decrypt_short_input_panics :
    Lock.from_stream ⟨1, 7, 42⟩ 5 = Except.ok ⟨1, LockType.stream 7, 42, 5, true⟩ ∧
    Lock.decrypt ⟨1, LockType.stream 7, 42, 5, true⟩ [] [] [] = none ∧
    Lock.decrypt ⟨1, LockType.stream 7, 42, 5, true⟩ (List.replicate 15 0) [] [] = none :=
  ⟨rfl, rfl, rfl⟩

/-- C8 (amended): a Lock produced by `from_stream` or `from_identity` is
already in the decoded (keyed) state and `encrypt` takes it by shared
reference, so it succeeds on every call — it is not consumed or marked
spent, and a second encryption on the same lock succeeds as well. -/
theorem c8_lock_encrypt_reusable :
    (∀ (k : FullStreamKey) (nonce : Nat) (l : Lock),
      Lock.from_stream k nonce = Except.ok l →
        l.decoded = true ∧
        ∀ m1 a1 o1 m2 a2 o2 : List Nat,
          (Lock.encrypt l m1 a1 o1).isOk = true ∧ (Lock.encrypt l m2 a2 o2).isOk = true) ∧
    (∀ (id : FullIdentity) (nonce esk : Nat) (l : Lock) (sk : FullStreamKey),
      Lock.from_identity id nonce esk = Except.ok (l, sk) →
        l.decoded = true ∧
        ∀ m1 a1 o1 m2 a2 o2 : List Nat,
          (Lock.encrypt l m1 a1 o1).isOk = true ∧ (Lock.encrypt l m2 a2 o2).isOk = true) := by
  constructor
  · intro k nonce l h
    have hl : l = ⟨k.get_version, LockType.stream k.get_id, k.get_key, nonce, true⟩ := by
      by_cases hv : k.get_version ≠ 1
      · simp [Lock.from_stream, hv] at h
      · simp [Lock.from_stream, hv] at h
        exact h.symm
    subst hl
    refine ⟨rfl, ?_⟩
    intro m1 a1 o1 m2 a2 o2
    constructor <;> simp [Lock.encrypt, Except.isOk, Except.toBool]
  · intro id nonce esk l sk h
    have hl : l.decoded = true := by
      by_cases hv : id.version ≠ 1
      · simp [Lock.from_identity, hv] at h
      · simp [Lock.from_identity, hv] at h
        rw [← h.1]
    refine ⟨hl, ?_⟩
    intro m1 a1 o1 m2 a2 o2
    constructor <;> simp [Lock.encrypt, hl, Except.isOk, Except.toBool]

/-- C8 witness: a concrete stream lock and a concrete identity lock, each
encrypting two payloads. -/
theorem c8_lock_encrypt_reusable_witness :
    ((⟨1, LockType.stream 7, 42, 5, true⟩ : Lock).decoded = true ∧
      (Lock.encrypt ⟨1, LockType.stream 7, 42, 5, true⟩ [1] [] []).isOk = true ∧
      (Lock.encrypt ⟨1, LockType.stream 7, 42, 5, true⟩ [2] [] []).isOk = true) ∧
    ((⟨1, LockType.identity 9 3, Nat.pair 9 3, 6, true⟩ : Lock).decoded = true ∧
      (Lock.encrypt ⟨1, LockType.identity 9 3, Nat.pair 9 3, 6, true⟩ [1] [] []).isOk = true ∧
      (Lock.encrypt ⟨1, LockType.identity 9 3, Nat.pair 9 3, 6, true⟩ [2] [] []).isOk = true) := by
  have h1 := c8_lock_encrypt_reusable.1 ⟨1, 7, 42⟩ 5 ⟨1, LockType.stream 7, 42, 5, true⟩ rfl
  have h2 := c8_lock_encrypt_reusable.2 ⟨1, 9⟩ 6 3
    ⟨1, LockType.identity 9 3, Nat.pair 9 3, 6, true⟩ ⟨1, Nat.pair 9 3, Nat.pair 9 3⟩ rfl
  exact ⟨⟨h1.1, (h1.2 [1] [] [] [2] [] []).1, (h1.2 [1] [] [] [2] [] []).2⟩,
    ⟨h2.1, (h2.2 [1] [] [] [2] [] []).1, (h2.2 [1] [] [] [2] [] []).2⟩⟩

/-- C8 counterexample: the claim says a lock can encrypt at most one
payload — that after one successful `encrypt` the lock is consumed or
spent so a second call cannot succeed.  On the concrete stream lock both
the first and the second encryption succeed, each returning a concrete
ciphertext. -/
theorem c8_second_encrypt_succeeds :
    Lock.from_stream ⟨1, 7, 42⟩ 5 = Except.ok ⟨1, LockType.stream 7, 42, 5, true⟩ ∧
    Lock.encrypt ⟨1, LockType.stream 7, 42, 5, true⟩ [1, 2] [] [] =
      Except.ok ([1, 2] ++ mkTag [1, 2] [] 5 42) ∧
    Lock.encrypt ⟨1, LockType.stream 7, 42, 5, true⟩ [3, 4] [] [] =
      Except.ok ([3, 4] ++ mkTag [3, 4] [] 5 42) :=
  ⟨rfl, rfl, rfl⟩

/-- The invariant that every correctly produced Entry maintains: the hash
state covers prefix plus raw bytes, `entry_hash` covers prefix plus body,
`hash` covers everything. -/
def EntryWF (e : Entry) : Prop :=
  e.hash_state = some ⟨entryPrefix e.doc e.field ++ e.entry⟩ ∧
  e.entry_hash = some ⟨1, digestOf (entryPrefix e.doc e.field ++ e.entry.take e.entry_len)⟩ ∧
  e.hash = ⟨1, digestOf (entryPrefix e.doc e.field ++ e.entry)⟩

def entrySpecHash (e : Entry) : Hash :=
  ⟨1, digestOf (entryPrefix e.doc e.field ++ e.entry.take e.entry_len)⟩

theorem populate_hash_state_wf (e0 : Entry) : EntryWF e0.populate_hash_state := by
  unfold Entry.populate_hash_state EntryWF
  by_cases h : e0.entry.length > e0.entry_len
  · simp only [h, if_true, HashState.update, HashState.new, HashState.get_hash,
      List.nil_append, List.append_assoc, List.take_append_drop, entryPrefix]
    exact ⟨trivial, trivial, trivial⟩
  · have htake : e0.entry.take e0.entry_len = e0.entry :=
      List.take_of_length_le (by omega)
    simp only [h, if_false, HashState.update, HashState.new, HashState.get_hash,
      List.nil_append, List.append_assoc, htake, entryPrefix]
    exact ⟨trivial, trivial, trivial⟩

theorem sign_success_eq (e : Entry) (vault : Vault) (key : Key)
    (hwf : EntryWF e) (hk : key ∈ vault.keys) (hv : key.version = 1)
    (hsz : e.entry.length + 5 ≤ MAX_ENTRY_SIZE) :
    Entry.sign e vault key =
      ({ e with
          signed_by := e.signed_by ++ [key.id],
          entry := e.entry ++ sigEncode ⟨1, key.id, entrySpecHash e⟩,
          hash_state := some ⟨(entryPrefix e.doc e.field ++ e.entry) ++
            sigEncode ⟨1, key.id, entrySpecHash e⟩⟩,
          hash := ⟨1, digestOf ((entryPrefix e.doc e.field ++ e.entry) ++
            sigEncode ⟨1, key.id, entrySpecHash e⟩)⟩,
          compressed := none }, Except.ok ()) := by
  obtain ⟨h1, h2, h3⟩ := hwf
  have hsz' : ¬ (e.entry.length + 5 > MAX_ENTRY_SIZE) := by omega
  unfold Entry.sign
  simp only [h1, h2, Option.isNone_some, Bool.or_self, if_neg, Bool.false_eq_true,
    not_false_iff, Option.getD_some, Vault.sign, hk, if_true, hv, ite_true,
    Signature.signed_by, List.length_append, sigEncode_length, hsz',
    List.drop_left, HashState.update, HashState.get_hash]
  simp [entrySpecHash, HashState.update, HashState.get_hash, List.drop_left]

theorem sign_oversize_eq (e : Entry) (vault : Vault) (key : Key)
    (hwf : EntryWF e) (hk : key ∈ vault.keys) (hv : key.version = 1)
    (hsz : MAX_ENTRY_SIZE < e.entry.length + 5) :
    Entry.sign e vault key =
      ({ e with
          signed_by := e.signed_by ++ [key.id],
          entry := e.entry ++ sigEncode ⟨1, key.id, entrySpecHash e⟩ },
       Except.error (CryptoError.Io "Entry is too large with signature")) := by
  obtain ⟨h1, h2, h3⟩ := hwf
  have hsz' : e.entry.length + 5 > MAX_ENTRY_SIZE := by omega
  unfold Entry.sign
  simp only [h1, h2, Option.isNone_some, Bool.or_self, Option.getD_some,
    Vault.sign, hk, if_true, hv, ite_true, Signature.signed_by,
    List.length_append, sigEncode_length, hsz']
  simp [entrySpecHash, hsz, h1, h2, h3]

theorem digestOf_ne_of_length_ne (l1 l2 : List Nat) (h : l1.length ≠ l2.length) :
    digestOf l1 ≠ digestOf l2 := by
  unfold digestOf
  intro heq
  exact h (Nat.pair_eq_pair.mp heq).1

/-- C5: whenever `Entry::sign` succeeds on a well-formed entry, the
`entry_hash`, parent document hash and field are unchanged; exactly one
encoded signature (over the entry hash) is appended to the raw bytes and
one identity to `signed_by`; and `hash` becomes the hash of the whole raw
byte sequence (prefix, body and all signatures including the new one), so
it differs from the previous hash. -/
theorem c5_sign_monotonic (e : Entry) (vault : Vault) (key : Key)
    (e' : Entry) (r : Except CryptoError Unit)
    (hwf : EntryWF e) (hk : key ∈ vault.keys) (hv : key.version = 1)
    (hsz : e.entry.length + 5 ≤ MAX_ENTRY_SIZE)
    (hsign : Entry.sign e vault key = (e', r)) :
    r = Except.ok () ∧
    e'.entry_hash = e.entry_hash ∧ e'.doc = e.doc ∧ e'.field = e.field ∧
    (∃ sig : Signature, e'.entry = e.entry ++ sigEncode sig ∧
      sig.signed_by = key.id ∧ e.entry_hash = some sig.signedHash) ∧
    e'.signed_by = e.signed_by ++ [key.id] ∧
    e'.hash = ((HashState.new.update (entryPrefix e'.doc e'.field)).update e'.entry).get_hash ∧
    e'.hash ≠ e.hash := by
  have heq := sign_success_eq e vault key hwf hk hv hsz
  have hpair := hsign.symm.trans heq
  injection hpair with he' hr
  subst he'
  subst hr
  refine ⟨rfl, rfl, rfl, rfl, ⟨⟨1, key.id, entrySpecHash e⟩, rfl, rfl, hwf.2.1⟩,
    rfl, ?_, ?_⟩
  · simp [HashState.update, HashState.new, HashState.get_hash, List.append_assoc]
  · rw [hwf.2.2]
    intro hbad
    have hd : digestOf ((entryPrefix e.doc e.field ++ e.entry) ++
        sigEncode ⟨1, key.id, entrySpecHash e⟩) =
        digestOf (entryPrefix e.doc e.field ++ e.entry) := congrArg Hash.digest hbad
    exact digestOf_ne_of_length_ne _ _ (by simp [sigEncode]) hd

def docZero : Hash := ⟨1, 5⟩

def smallEntryBase : Entry := ⟨none, none, Hash.new_empty, docZero, [], 2, [2, 10], [], none⟩

def smallEntry : Entry := smallEntryBase.populate_hash_state

def vaultB : Vault := ⟨[⟨1, ⟨1, 3⟩⟩]⟩

def keyB : Key := ⟨1, ⟨1, 3⟩⟩

/-- C5 witness: signing a small concrete entry succeeds, keeps its
`entry_hash` and changes its `hash`. -/
theorem c5_sign_monotonic_witness :
    (Entry.sign smallEntry vaultB keyB).2 = Except.ok () ∧
    (Entry.sign smallEntry vaultB keyB).1.entry_hash = smallEntry.entry_hash ∧
    (Entry.sign smallEntry vaultB keyB).1.hash ≠ smallEntry.hash := by
  have h := c5_sign_monotonic smallEntry vaultB keyB
    (Entry.sign smallEntry vaultB keyB).1 (Entry.sign smallEntry vaultB keyB).2
    (populate_hash_state_wf smallEntryBase)
    (List.mem_singleton.mpr rfl) rfl (by decide) Prod.mk.eta.symm
  exact ⟨h.1, h.2.1, h.2.2.2.2.2.2.2⟩

def bigBytes : List Nat := List.replicate 65532 0

def bigEntry : Entry :=
  ⟨some ⟨entryPrefix docZero [] ++ bigBytes⟩,
   some ⟨1, digestOf (entryPrefix docZero [] ++ bigBytes.take 65532)⟩,
   ⟨1, digestOf (entryPrefix docZero [] ++ bigBytes)⟩,
   docZero, [], 65532, bigBytes, [], none⟩

theorem bigEntry_wf : EntryWF bigEntry := ⟨rfl, rfl, rfl⟩

theorem bigEntry_len : bigEntry.entry.length = 65532 := by
  show bigBytes.length = 65532
  unfold bigBytes
  exact List.length_replicate _ _

/-- C6 (amended): when `Entry::sign` fails because the appended signature
would push the encoding past `MAX_ENTRY_SIZE`, the entry's `hash`,
`entry_hash`, hash state, parent hash, field and cached compressed form
are unchanged — so the committed hash never covers bytes beyond the
maximum — but the encoded signature has already been appended to the raw
bytes and the signer to `signed_by`. -/
theorem c6_sign_size_failure (e : Entry) (vault : Vault) (key : Key)
    (e' : Entry) (r : Except CryptoError Unit)
    (hwf : EntryWF e) (hk : key ∈ vault.keys) (hv : key.version = 1)
    (hsz : MAX_ENTRY_SIZE < e.entry.length + 5)
    (hsign : Entry.sign e vault key = (e', r)) :
    r = Except.error (CryptoError.Io "Entry is too large with signature") ∧
    e'.hash = e.hash ∧ e'.entry_hash = e.entry_hash ∧ e'.hash_state = e.hash_state ∧
    e'.doc = e.doc ∧ e'.field = e.field ∧ e'.compressed = e.compressed ∧
    e'.entry = e.entry ++ sigEncode ⟨1, key.id, entrySpecHash e⟩ ∧
    e'.signed_by = e.signed_by ++ [key.id] := by
  have heq := sign_oversize_eq e vault key hwf hk hv hsz
  have hpair := hsign.symm.trans heq
  injection hpair with he' hr
  subst he'
  subst hr
  exact ⟨rfl, rfl, rfl, rfl, rfl, rfl, rfl, rfl, rfl⟩

/-- C6 witness: a concrete entry five bytes below the limit; the failed
sign keeps its hash but leaves the signature appended. -/
theorem c6_sign_size_failure_witness :
    (Entry.sign bigEntry vaultB keyB).2 =
      Except.error (CryptoError.Io "Entry is too large with signature") ∧
    (Entry.sign bigEntry vaultB keyB).1.hash = bigEntry.hash ∧
    (Entry.sign bigEntry vaultB keyB).1.signed_by = bigEntry.signed_by ++ [keyB.id] := by
  have h := c6_sign_size_failure bigEntry vaultB keyB
    (Entry.sign bigEntry vaultB keyB).1 (Entry.sign bigEntry vaultB keyB).2
    bigEntry_wf (List.mem_singleton.mpr rfl) rfl
    (by rw [bigEntry_len]; decide) Prod.mk.eta.symm
  exact ⟨h.1, h.2.1, h.2.2.2.2.2.2.2.2⟩

/-- C6 counterexample: the claim says a failed oversize sign leaves the
Entry unchanged — same raw bytes and same signer list.  On this concrete
entry the failed call has already appended the signature bytes and the
signer identity. -/
theorem c6_failed_sign_mutates :
    (Entry.sign bigEntry vaultB keyB).2 =
      Except.error (CryptoError.Io "Entry is too large with signature") ∧
    (Entry.sign bigEntry vaultB keyB).1.signed_by ≠ bigEntry.signed_by ∧
    (Entry.sign bigEntry vaultB keyB).1.entry ≠ bigEntry.entry := by
  have heq := sign_oversize_eq bigEntry vaultB keyB bigEntry_wf
    (List.mem_singleton.mpr rfl) rfl (by rw [bigEntry_len]; decide)
  rw [heq]
  refine ⟨rfl, ?_, ?_⟩
  · show bigEntry.signed_by ++ [keyB.id] ≠ bigEntry.signed_by
    intro hbad
    have hlen := congrArg List.length hbad
    rw [List.length_append] at hlen
    simp at hlen
  · show bigEntry.entry ++ sigEncode ⟨1, keyB.id, entrySpecHash bigEntry⟩ ≠ bigEntry.entry
    intro hbad
    have hlen := congrArg List.length hbad
    rw [List.length_append, sigEncode_length] at hlen
    omega

theorem parseVerifySigs_nil (fuel : Nat) (h : Hash) (m1 m2 : String) :
    parseVerifySigs fuel [] h m1 m2 = Except.ok [] := by
  cases fuel <;> rfl

theorem parseSigs_nil (fuel : Nat) (m : String) :
    parseSigs fuel [] m = Except.ok [] := by
  cases fuel <;> rfl

/-- C4: the `entry_hash` of a freshly built Entry is the hash obtained by
feeding one incremental hash state the canonical encoding of the parent
document hash as a top-level value, then the canonical encoding of the
field as a top-level value, then the body bytes; and `decode_entry` on the
`encode_entry` output with the same parent hash and field reconstructs
exactly the same entry — the two independent computations agree. -/
theorem c4_entry_hash_agreement (doc : Hash) (field : List Nat) (v : Value)
    (hwf : valueWF v = true) (hsz : (encodeValue v).length ≤ MAX_ENTRY_SIZE) :
    ∃ e : Entry,
      Entry.new doc field v = some e ∧
      e.entry_hash = some (((HashState.new.update (encodeValue (.hashV doc))).update
        (encodeValue (.strV field))).update (encodeValue v)).get_hash ∧
      NoSchema.encode_entry e = some (0 :: encodeValue v) ∧
      NoSchema.decode_entry (0 :: encodeValue v) doc field = Except.ok e ∧
      (NoSchema.decode_entry (0 :: encodeValue v) doc field).map Entry.entry_hash =
        Except.ok e.entry_hash := by
  have hsz' : ¬ ((encodeValue v).length > MAX_ENTRY_SIZE) := by omega
  have hvv : verifyValue (encodeValue v) = some (encodeValue v).length := by
    have h := verifyValue_encode v [] hwf
    simpa using h
  have hpop : Entry.populate_hash_state
      ⟨none, none, Hash.new_empty, doc, field, (encodeValue v).length, encodeValue v, [], none⟩ =
      ⟨some (((HashState.new.update (encodeValue (.hashV doc))).update
          (encodeValue (.strV field))).update (encodeValue v)),
        some (((HashState.new.update (encodeValue (.hashV doc))).update
          (encodeValue (.strV field))).update (encodeValue v)).get_hash,
        (((HashState.new.update (encodeValue (.hashV doc))).update
          (encodeValue (.strV field))).update (encodeValue v)).get_hash,
        doc, field, (encodeValue v).length, encodeValue v, [], none⟩ := by
    simp [Entry.populate_hash_state, List.take_length]
  have hdr : decode_raw MAX_ENTRY_SIZE (0 :: encodeValue v) =
      Except.ok (encodeValue v, none) := by
    simp [decode_raw, hsz']
  have hdec : NoSchema.decode_entry (0 :: encodeValue v) doc field =
      Except.ok ⟨some (((HashState.new.update (encodeValue (.hashV doc))).update
          (encodeValue (.strV field))).update (encodeValue v)),
        some (((HashState.new.update (encodeValue (.hashV doc))).update
          (encodeValue (.strV field))).update (encodeValue v)).get_hash,
        (((HashState.new.update (encodeValue (.hashV doc))).update
          (encodeValue (.strV field))).update (encodeValue v)).get_hash,
        doc, field, (encodeValue v).length, encodeValue v, [], none⟩ := by
    simp only [NoSchema.decode_entry, hdr, hvv, List.take_length, List.drop_length,
      lt_self_iff_false, if_false, gt_iff_lt, parseVerifySigs_nil]
    simp [Entry.from_parts]
  refine ⟨⟨some (((HashState.new.update (encodeValue (.hashV doc))).update
          (encodeValue (.strV field))).update (encodeValue v)),
        some (((HashState.new.update (encodeValue (.hashV doc))).update
          (encodeValue (.strV field))).update (encodeValue v)).get_hash,
        (((HashState.new.update (encodeValue (.hashV doc))).update
          (encodeValue (.strV field))).update (encodeValue v)).get_hash,
        doc, field, (encodeValue v).length, encodeValue v, [], none⟩, ?_, ?_, ?_, ?_, ?_⟩
  · rw [Entry.new]
    simp only [hsz', if_false, hpop]
  · rfl
  · simp [NoSchema.encode_entry, Entry.len, Entry.raw_entry, hsz]
  · rw [hdec]
  · rw [hdec]
    rfl

/-- C4 witness: a concrete entry under document hash `⟨1, 5⟩`, field `""`
and body `Int 5`. -/
theorem c4_entry_hash_agreement_witness :
    ∃ e : Entry,
      Entry.new docZero [] (.intV 5) = some e ∧
      e.entry_hash = some (((HashState.new.update (encodeValue (.hashV docZero))).update
        (encodeValue (.strV []))).update (encodeValue (.intV 5))).get_hash ∧
      NoSchema.encode_entry e = some (0 :: encodeValue (.intV 5)) ∧
      NoSchema.decode_entry (0 :: encodeValue (.intV 5)) docZero [] = Except.ok e ∧
      (NoSchema.decode_entry (0 :: encodeValue (.intV 5)) docZero []).map Entry.entry_hash =
        Except.ok e.entry_hash :=
  c4_entry_hash_agreement docZero [] (.intV 5) (by decide) (by decide)

/-- C10: equality on Entry is decided by the outward hash alone — two
entries compare equal exactly when their `hash` fields agree, regardless
of parent hash, field, body or signers; and `trusted_decode_entry` with a
caller-supplied hash stores that hash unverified (no hash state is even
populated), so the decoded entry compares equal to any entry carrying the
same hash. -/
theorem c10_entry_eq_is_hash_eq :
    (∀ e1 e2 : Entry, Entry.beq e1 e2 = true ↔ e1.hash = e2.hash) ∧
    (∀ (buf : List Nat) (doc : Hash) (field : List Nat) (h : Hash) (e : Entry),
      NoSchema.trusted_decode_entry buf doc field (some h) = Except.ok e →
        e.hash = h ∧ e.hash_state = none ∧ e.entry_hash = none ∧
        ∀ e2 : Entry, e2.hash = h → Entry.beq e e2 = true) := by
  constructor
  · intro e1 e2
    simp [Entry.beq]
  · intro buf doc field h e hdec
    unfold NoSchema.trusted_decode_entry at hdec
    split at hdec
    · cases hdec
    · split at hdec
      · cases hdec
      · split at hdec
        · cases hdec
        · simp only [Option.isSome_some, Option.getD_some, if_true,
            Except.ok.injEq, Entry.from_parts] at hdec
          subst hdec
          exact ⟨rfl, rfl, rfl, fun e2 he2 => by simp [Entry.beq, he2]⟩

/-- C10 witness: decoding the blob of `Int 5` with the arbitrary supplied
hash `⟨9, 99⟩` yields an entry carrying exactly that hash, unverified and
with no hash state; it compares equal to an entry with a different parent
hash, field and body but the same hash. -/
theorem c10_entry_eq_is_hash_eq_witness :
    NoSchema.trusted_decode_entry [0, 2, 10] docZero [] (some ⟨9, 99⟩) =
      Except.ok ⟨none, none, ⟨9, 99⟩, docZero, [], 2, [2, 10], [], none⟩ ∧
    (⟨none, none, ⟨9, 99⟩, docZero, [], 2, [2, 10], [], none⟩ : Entry).hash = ⟨9, 99⟩ ∧
    Entry.beq ⟨none, none, ⟨9, 99⟩, docZero, [], 2, [2, 10], [], none⟩
      ⟨none, none, ⟨9, 99⟩, ⟨1, 777⟩, [1], 1, [0], [], none⟩ = true := by
  refine ⟨rfl, ?_, ?_⟩
  · exact (c10_entry_eq_is_hash_eq.2 [0, 2, 10] docZero [] ⟨9, 99⟩
      ⟨none, none, ⟨9, 99⟩, docZero, [], 2, [2, 10], [], none⟩ rfl).1
  · exact (c10_entry_eq_is_hash_eq.2 [0, 2, 10] docZero [] ⟨9, 99⟩
      ⟨none, none, ⟨9, 99⟩, docZero, [], 2, [2, 10], [], none⟩ rfl).2.2.2
      ⟨none, none, ⟨9, 99⟩, ⟨1, 777⟩, [1], 1, [0], [], none⟩ rfl

theorem c2_decode_stage (body : Value) (sigs : List Signature) (level : Int)
    (hwf : valueWF body = true)
    (hsig : ∀ s ∈ sigs, s.version = 1)
    (hsz : (encodeValue body ++ sigsBytes sigs).length ≤ MAX_DOC_SIZE) :
    ∃ d' : Document,
      NoSchema.trusted_decode_doc
          (1 :: zstdCompress level (encodeValue body ++ sigsBytes sigs)) none =
        Except.ok d' ∧
      d'.hash = ⟨1, digestOf (encodeValue body ++ sigsBytes sigs)⟩ ∧
      d'.doc_hash = some ⟨1, digestOf (encodeValue body)⟩ ∧
      d'.doc = encodeValue body ++ sigsBytes sigs ∧
      d'.doc_len = (encodeValue body).length ∧
      d'.signed_by = sigs.map Signature.signed_by := by
  have hnotlt : ¬ ((encodeValue body ++ sigsBytes sigs).length > MAX_DOC_SIZE) := by omega
  have hdr : decode_raw MAX_DOC_SIZE
      (1 :: zstdCompress level (encodeValue body ++ sigsBytes sigs)) =
      Except.ok (encodeValue body ++ sigsBytes sigs,
        some (1 :: zstdCompress level (encodeValue body ++ sigsBytes sigs))) := by
    simp only [decode_raw, zstdCompress, zstdFrameContentSize, zstdDecompress]
    rw [List.length_append] at hnotlt
    simp [hnotlt]
  have hvv : verifyValue (encodeValue body ++ sigsBytes sigs) =
      some (encodeValue body).length := verifyValue_encode body (sigsBytes sigs) hwf
  have htake : (encodeValue body ++ sigsBytes sigs).take (encodeValue body).length =
      encodeValue body := List.take_left _ _
  have hdrop : (encodeValue body ++ sigsBytes sigs).drop (encodeValue body).length =
      sigsBytes sigs := List.drop_left _ _
  have hcnt : sigs.length ≤ (encodeValue body ++ sigsBytes sigs).length := by
    have h5 := sigsBytes_length sigs
    rw [List.length_append]
    omega
  have hsigs : parseSigs (encodeValue body ++ sigsBytes sigs).length (sigsBytes sigs)
      "Invalid signature in raw document" = Except.ok sigs :=
    parseSigs_sigsBytes sigs _ _ hsig hcnt
  by_cases hsb : sigsBytes sigs = []
  · have hlen : ¬ ((encodeValue body ++ sigsBytes sigs).length > (encodeValue body).length) := by
      rw [List.length_append, hsb]
      simp
    refine ⟨⟨some (HashState.new.update
        ((encodeValue body ++ sigsBytes sigs).take (encodeValue body).length)),
      some (HashState.new.update
        ((encodeValue body ++ sigsBytes sigs).take (encodeValue body).length)).get_hash,
      (HashState.new.update
        ((encodeValue body ++ sigsBytes sigs).take (encodeValue body).length)).get_hash,
      (encodeValue body).length, encodeValue body ++ sigsBytes sigs,
      some (1 :: zstdCompress level (encodeValue body ++ sigsBytes sigs)),
      sigs.map Signature.signed_by⟩, ?_, ?_, ?_, rfl, rfl, rfl⟩
    · unfold NoSchema.trusted_decode_doc
      rw [hdr]
      simp only [hvv, hlen, if_false, hdrop, hsigs, Document.from_parts]
    · show (HashState.new.update _).get_hash = _
      rw [htake]
      simp [HashState.new, HashState.update, HashState.get_hash, hsb]
    · show some (HashState.new.update _).get_hash = _
      rw [htake]
      simp [HashState.new, HashState.update, HashState.get_hash]
  · have hlen : (encodeValue body ++ sigsBytes sigs).length > (encodeValue body).length := by
      rw [List.length_append]
      have : 0 < (sigsBytes sigs).length := List.length_pos.mpr hsb
      omega
    refine ⟨⟨some ((HashState.new.update
        ((encodeValue body ++ sigsBytes sigs).take (encodeValue body).length)).update
        ((encodeValue body ++ sigsBytes sigs).drop (encodeValue body).length)),
      some (HashState.new.update
        ((encodeValue body ++ sigsBytes sigs).take (encodeValue body).length)).get_hash,
      ((HashState.new.update
        ((encodeValue body ++ sigsBytes sigs).take (encodeValue body).length)).update
        ((encodeValue body ++ sigsBytes sigs).drop (encodeValue body).length)).get_hash,
      (encodeValue body).length, encodeValue body ++ sigsBytes sigs,
      some (1 :: zstdCompress level (encodeValue body ++ sigsBytes sigs)),
      sigs.map Signature.signed_by⟩, ?_, ?_, ?_, rfl, rfl, rfl⟩
    · unfold NoSchema.trusted_decode_doc
      rw [hdr]
      simp only [hvv, hlen, if_true, hdrop, hsigs, Document.from_parts]
    · show ((HashState.new.update _).update _).get_hash = _
      rw [htake, hdrop]
      simp [HashState.new, HashState.update, HashState.get_hash]
    · show some (HashState.new.update _).get_hash = _
      rw [htake]
      simp [HashState.new, HashState.update, HashState.get_hash]

/-- C2: for every well-formed Document whose body has no schema hash, with
any number of appended signatures, compressing with
`NoSchema::compress_doc` at any level and decoding with
`NoSchema::trusted_decode_doc` (no hash supplied) yields a document equal
to the original, with the same `hash` and `doc_hash` (and the same raw
bytes, body length and signers). -/
theorem c2_compress_roundtrip (body : Value) (sigs : List Signature) (level : Int)
    (hwf : valueWF body = true) (hmap : body.isMap = true)
    (hns : hasSchemaHash body = false)
    (hsig : ∀ s ∈ sigs, s.version = 1 ∧
      s.signedHash = ⟨1, digestOf (encodeValue body)⟩)
    (hsz : (encodeValue body ++ sigsBytes sigs).length ≤ MAX_DOC_SIZE) :
    ∃ d' : Document,
      NoSchema.compress_doc (mkWFDoc body sigs) level =
        some (1 :: zstdCompress level (encodeValue body ++ sigsBytes sigs)) ∧
      NoSchema.trusted_decode_doc
          (1 :: zstdCompress level (encodeValue body ++ sigsBytes sigs)) none =
        Except.ok d' ∧
      docEq d' (mkWFDoc body sigs) = true ∧
      d'.hash = (mkWFDoc body sigs).hash ∧
      d'.doc_hash = (mkWFDoc body sigs).doc_hash ∧
      d'.doc = (mkWFDoc body sigs).doc ∧
      d'.doc_len = (mkWFDoc body sigs).doc_len ∧
      d'.signed_by = (mkWFDoc body sigs).signed_by := by
  have hph : parseSchemaHash ((mkWFDoc body sigs).doc) = none := by
    show parseSchemaHash (encodeValue body ++ sigsBytes sigs) = none
    exact parseSchemaHash_encode_none body (sigsBytes sigs) hns
  have hcomp : NoSchema.compress_doc (mkWFDoc body sigs) level =
      some (1 :: zstdCompress level (encodeValue body ++ sigsBytes sigs)) := by
    unfold NoSchema.compress_doc Document.schema_hash
    rw [hph]
    rfl
  obtain ⟨d', hdec, hh, hdh, hdoc, hdl, hsb⟩ :=
    c2_decode_stage body sigs level hwf (fun s hs => (hsig s hs).1) hsz
  refine ⟨d', hcomp, hdec, ?_, ?_, ?_, hdoc, hdl, hsb⟩
  · simp [docEq, hh, mkWFDoc]
  · rw [hh]
    simp [mkWFDoc]
  · rw [hdh]
    simp [mkWFDoc]

/-- C2 witness: a one-entry map body with a single genuine signature. -/
theorem c2_compress_roundtrip_witness :
    ∃ d' : Document,
      NoSchema.compress_doc (mkWFDoc (.mapV [([97], .intV 1)])
          [⟨1, ⟨1, 3⟩, ⟨1, digestOf (encodeValue (.mapV [([97], .intV 1)]))⟩⟩]) 3 =
        some (1 :: zstdCompress 3 (encodeValue (.mapV [([97], .intV 1)]) ++
          sigsBytes [⟨1, ⟨1, 3⟩, ⟨1, digestOf (encodeValue (.mapV [([97], .intV 1)]))⟩⟩])) ∧
      NoSchema.trusted_decode_doc
          (1 :: zstdCompress 3 (encodeValue (.mapV [([97], .intV 1)]) ++
            sigsBytes [⟨1, ⟨1, 3⟩, ⟨1, digestOf (encodeValue (.mapV [([97], .intV 1)]))⟩⟩]))
          none = Except.ok d' ∧
      docEq d' (mkWFDoc (.mapV [([97], .intV 1)])
          [⟨1, ⟨1, 3⟩, ⟨1, digestOf (encodeValue (.mapV [([97], .intV 1)]))⟩⟩]) = true ∧
      d'.hash = (mkWFDoc (.mapV [([97], .intV 1)])
          [⟨1, ⟨1, 3⟩, ⟨1, digestOf (encodeValue (.mapV [([97], .intV 1)]))⟩⟩]).hash ∧
      d'.doc_hash = (mkWFDoc (.mapV [([97], .intV 1)])
          [⟨1, ⟨1, 3⟩, ⟨1, digestOf (encodeValue (.mapV [([97], .intV 1)]))⟩⟩]).doc_hash ∧
      d'.doc = (mkWFDoc (.mapV [([97], .intV 1)])
          [⟨1, ⟨1, 3⟩, ⟨1, digestOf (encodeValue (.mapV [([97], .intV 1)]))⟩⟩]).doc ∧
      d'.doc_len = (mkWFDoc (.mapV [([97], .intV 1)])
          [⟨1, ⟨1, 3⟩, ⟨1, digestOf (encodeValue (.mapV [([97], .intV 1)]))⟩⟩]).doc_len ∧
      d'.signed_by = (mkWFDoc (.mapV [([97], .intV 1)])
          [⟨1, ⟨1, 3⟩, ⟨1, digestOf (encodeValue (.mapV [([97], .intV 1)]))⟩⟩]).signed_by := by
  apply c2_compress_roundtrip
  · decide
  · decide
  · decide
  · intro s hs
    rw [List.mem_singleton] at hs
    subst hs
    exact ⟨rfl, rfl⟩
  · show (encodeValue (.mapV [([97], .intV 1)])).length +
      (sigsBytes [⟨1, ⟨1, 3⟩, ⟨1, digestOf (encodeValue (.mapV [([97], .intV 1)]))⟩⟩]).length ≤
        MAX_DOC_SIZE
    rw [sigsBytes_length]
    decide

/-- Claim C3's envelope-level malformedness: truncation (no CompressType
byte), a bad CompressType byte, size beyond `MAX_DOC_SIZE`, or an
oversized/failing decompression. -/
def envelopeBad (buf : List Nat) : Prop :=
  buf = [] ∨
  (∃ b rest, buf = b :: rest ∧ 3 < b) ∨
  (∃ rest, buf = 0 :: rest ∧ MAX_DOC_SIZE < rest.length) ∨
  (∃ rest, buf = 1 :: rest ∧
    (MAX_DOC_SIZE < zstdFrameContentSize rest ∨ zstdDecompress rest = none))

/-- Claim C3: the CompressType is Compressed (2) or DictCompressed (3). -/
def schemaCompressed (buf : List Nat) : Prop :=
  ∃ rest, buf = 2 :: rest ∨ buf = 3 :: rest

/-- Claim side: the decompressed body of a well-formed envelope. -/
def decodedBody (buf : List Nat) : Option (List Nat) :=
  match buf with
  | 0 :: rest => if rest.length ≤ MAX_DOC_SIZE then some rest else none
  | 1 :: rest =>
    if zstdFrameContentSize rest ≤ MAX_DOC_SIZE then zstdDecompress rest else none
  | _ => none

/-- Claim side: some appended signature fails to parse, or fails to verify
against the recomputed document hash. -/
def sigTailBad (tail : List Nat) (dh : Hash) : Prop :=
  (∃ e, parseSigs tail.length tail "Invalid signature in raw document" = Except.error e) ∨
  (∃ sigs, parseSigs tail.length tail "Invalid signature in raw document" = Except.ok sigs ∧
    ∃ s ∈ sigs, s.verify dh = false)

/-- Claim C3's full failure condition for `decode_doc`. -/
def c3Fails (buf : List Nat) : Prop :=
  envelopeBad buf ∨ schemaCompressed buf ∨
  (∃ body, decodedBody buf = some body ∧
    (verifyValue body = none ∨
     (∃ h, parseSchemaHash body = some h) ∨
     (∃ dlen, verifyValue body = some dlen ∧
       sigTailBad (body.drop dlen) ⟨1, digestOf (body.take dlen)⟩)))

theorem decode_raw_err_iff (buf : List Nat) :
    (∃ e, decode_raw MAX_DOC_SIZE buf = Except.error e) ↔
      (envelopeBad buf ∨ schemaCompressed buf) := by
  match buf with
  | [] =>
    constructor
    · intro _
      exact Or.inl (Or.inl rfl)
    · intro _
      exact ⟨"Unable to read compression type", rfl⟩
  | 0 :: rest =>
    by_cases hlen : rest.length > MAX_DOC_SIZE
    · constructor
      · intro _
        exact Or.inl (Or.inr (Or.inr (Or.inl ⟨rest, rfl, hlen⟩)))
      · intro _
        exact ⟨"Data is larger than maximum allowed size", by simp [decode_raw, hlen]⟩
    · constructor
      · rintro ⟨e, he⟩
        simp [decode_raw, hlen] at he
      · rintro (h | h)
        · rcases h with h | ⟨b, r, hb, h3⟩ | ⟨r, hr, hml⟩ | ⟨r, hr, _⟩
          · cases h
          · cases hb
            omega
          · cases hr
            omega
          · cases hr
        · rcases h with ⟨r, hr | hr⟩ <;> cases hr
  | 1 :: rest =>
    by_cases hfr : MAX_DOC_SIZE < zstdFrameContentSize rest
    · constructor
      · intro _
        exact Or.inl (Or.inr (Or.inr (Or.inr ⟨rest, rfl, Or.inl hfr⟩)))
      · intro _
        refine ⟨"Expected decompressed size is larger than maximum allowed size", ?_⟩
        simp [decode_raw, hfr]
    · match hz : zstdDecompress rest with
      | none =>
        constructor
        · intro _
          exact Or.inl (Or.inr (Or.inr (Or.inr ⟨rest, rfl, Or.inr hz⟩)))
        · intro _
          refine ⟨"Decompression failed", ?_⟩
          simp [decode_raw, hfr, hz]
      | some doc =>
        constructor
        · rintro ⟨e, he⟩
          simp [decode_raw, hfr, hz] at he
        · rintro (h | h)
          · rcases h with h | ⟨b, r, hb, h3⟩ | ⟨r, hr, hml⟩ | ⟨r, hr, hbad⟩
            · cases h
            · cases hb
              omega
            · cases hr
            · cases hr
              rcases hbad with hbad | hbad
              · omega
              · rw [hz] at hbad
                cases hbad
          · rcases h with ⟨r, hr | hr⟩ <;> cases hr
  | 2 :: rest =>
    constructor
    · intro _
      exact Or.inr ⟨rest, Or.inl rfl⟩
    · intro _
      exact ⟨"Data uses a schema, but NoSchema struct was used for decoding",
        by simp [decode_raw]⟩
  | 3 :: rest =>
    constructor
    · intro _
      exact Or.inr ⟨rest, Or.inr rfl⟩
    · intro _
      exact ⟨"Data uses a schema, but NoSchema struct was used for decoding",
        by simp [decode_raw]⟩
  | (n+4) :: rest =>
    constructor
    · intro _
      exact Or.inl (Or.inr (Or.inl ⟨n+4, rest, rfl, by omega⟩))
    · intro _
      refine ⟨"Invalid compression type", ?_⟩
      simp only [decode_raw]
      have h0 : ¬ (n + 4 = 0) := by omega
      have h1 : ¬ (n + 4 = 1) := by omega
      have h23 : ¬ (n + 4 = 2 ∨ n + 4 = 3) := by omega
      simp [h0, h1, h23]

theorem decode_raw_ok_body {buf body : List Nat} {c : Option (List Nat)}
    (h : decode_raw MAX_DOC_SIZE buf = Except.ok (body, c)) :
    decodedBody buf = some body := by
  match buf with
  | [] => cases h
  | 0 :: rest =>
    by_cases hlen : rest.length > MAX_DOC_SIZE
    · simp [decode_raw, hlen] at h
    · simp [decode_raw, hlen] at h
      obtain ⟨h1, _⟩ := h
      subst h1
      simp [decodedBody, Nat.not_lt.mp hlen]
  | 1 :: rest =>
    by_cases hfr : MAX_DOC_SIZE < zstdFrameContentSize rest
    · simp [decode_raw, hfr] at h
    · match hz : zstdDecompress rest with
      | none => simp [decode_raw, hfr, hz] at h
      | some doc =>
        simp [decode_raw, hfr, hz] at h
        obtain ⟨h1, _⟩ := h
        subst h1
        simp [decodedBody, Nat.not_lt.mp hfr, hz]
  | 2 :: rest => cases h
  | 3 :: rest => cases h
  | (n+4) :: rest =>
    simp only [decode_raw] at h
    have h0 : ¬ (n + 4 = 0) := by omega
    have h1 : ¬ (n + 4 = 1) := by omega
    have h23 : ¬ (n + 4 = 2 ∨ n + 4 = 3) := by omega
    simp [h0, h1, h23] at h

theorem parseVerifySigs_ok_inv (fuel : Nat) (b : List Nat) (h : Hash)
    (m1 m2 : String) (ids : List Identity)
    (hok : parseVerifySigs fuel b h m1 m2 = Except.ok ids) :
    ∃ sigs, parseSigs fuel b m1 = Except.ok sigs ∧
      ids = sigs.map Signature.signed_by ∧ ∀ s ∈ sigs, s.verify h = true := by
  induction fuel generalizing b ids with
  | zero =>
    match b with
    | [] =>
      simp [parseVerifySigs] at hok
      subst hok
      exact ⟨[], by simp [parseSigs]⟩
    | _ :: _ => simp [parseVerifySigs] at hok
  | succ f ih =>
    match b with
    | [] =>
      simp [parseVerifySigs] at hok
      subst hok
      exact ⟨[], by simp [parseSigs]⟩
    | x :: xs =>
      simp only [parseVerifySigs] at hok
      cases hd : sigDecode (x :: xs) with
      | none => simp [hd] at hok
      | some p =>
        obtain ⟨s, rest⟩ := p
        simp only [hd] at hok
        by_cases hvs : s.verify h = true
        · simp only [hvs, if_true] at hok
          cases hr : parseVerifySigs f rest h m1 m2 with
          | error e => simp [hr] at hok
          | ok t =>
            simp only [hr] at hok
            obtain ⟨sigs, hps, hmap, hall⟩ := ih rest t hr
            cases hok
            refine ⟨s :: sigs, ?_, ?_, ?_⟩
            · simp only [parseSigs, hd, hps]
            · simp [hmap]
            · intro x hx
              rcases List.mem_cons.mp hx with hx | hx
              · subst hx; exact hvs
              · exact hall x hx
        · simp [hvs] at hok

/-- C3: `NoSchema::decode_doc` returns an error exactly when the blob is
malformed (no/bad CompressType byte, truncation, invalid fogpack value,
failed or oversized decompression, size beyond `MAX_DOC_SIZE`), or the
CompressType is Compressed/DictCompressed, or the decompressed body's
empty-string key holds a schema hash, or some appended signature fails to
parse or to verify against the recomputed doc_hash; on every other input
it succeeds, listing exactly the signers of the appended signatures. -/
theorem c3_decode_doc_error_conditions (buf : List Nat) :
    ((∃ e, NoSchema.decode_doc buf = Except.error e) ↔ c3Fails buf) ∧
    (∀ d, NoSchema.decode_doc buf = Except.ok d →
      ∃ body dlen sigs,
        decodedBody buf = some body ∧ verifyValue body = some dlen ∧
        parseSigs (body.drop dlen).length (body.drop dlen)
          "Invalid signature in raw document" = Except.ok sigs ∧
        (∀ s ∈ sigs, s.verify ⟨1, digestOf (body.take dlen)⟩ = true) ∧
        d.signed_by = sigs.map Signature.signed_by) := by
  match hdr : decode_raw MAX_DOC_SIZE buf with
  | Except.error e0 =>
    have henv := (decode_raw_err_iff buf).mp ⟨e0, hdr⟩
    have hdd : NoSchema.decode_doc buf = Except.error e0 := by
      unfold NoSchema.decode_doc
      rw [hdr]
    constructor
    · constructor
      · intro _
        rcases henv with h | h
        · exact Or.inl h
        · exact Or.inr (Or.inl h)
      · intro _
        exact ⟨e0, hdd⟩
    · intro d hd
      rw [hdd] at hd
      cases hd
  | Except.ok (body, c) =>
    have hbody := decode_raw_ok_body hdr
    have hnoerr : ¬ (envelopeBad buf ∨ schemaCompressed buf) := by
      intro hbad
      obtain ⟨e, he⟩ := (decode_raw_err_iff buf).mpr hbad
      rw [hdr] at he
      cases he
    by_cases hsch : (parseSchemaHash body).isSome
    · have hdd : NoSchema.decode_doc buf = Except.error "Document has a schema" := by
        unfold NoSchema.decode_doc
        rw [hdr]
        simp [hsch]
      constructor
      · constructor
        · intro _
          exact Or.inr (Or.inr ⟨body, hbody,
            Or.inr (Or.inl (Option.isSome_iff_exists.mp hsch))⟩)
        · intro _
          exact ⟨_, hdd⟩
      · intro d hd
        rw [hdd] at hd
        cases hd
    · match hvv : verifyValue body with
      | none =>
        have hdd : NoSchema.decode_doc buf = Except.error "Invalid value" := by
          unfold NoSchema.decode_doc
          rw [hdr]
          simp [hsch, hvv]
        constructor
        · constructor
          · intro _
            exact Or.inr (Or.inr ⟨body, hbody, Or.inl hvv⟩)
          · intro _
            exact ⟨_, hdd⟩
        · intro d hd
          rw [hdd] at hd
          cases hd
      | some dlen =>
        have hfl : (body.drop dlen).length ≤ body.length := by
          rw [List.length_drop]
          omega
        have hfuel := parseSigs_fuel body.length (body.drop dlen).length
          (body.drop dlen) "Invalid signature in raw document" hfl (le_refl _)
        match hpv : parseVerifySigs body.length (body.drop dlen)
            ((HashState.new.update (body.take dlen)).get_hash)
            "Invalid signature in raw document"
            "Signature doesn't verify against document" with
        | Except.error e1 =>
          have hdd : NoSchema.decode_doc buf = Except.error e1 := by
            unfold NoSchema.decode_doc
            rw [hdr]
            simp [hsch, hvv, hpv]
          have hbad : sigTailBad (body.drop dlen) ⟨1, digestOf (body.take dlen)⟩ := by
            match hps : parseSigs body.length (body.drop dlen)
                "Invalid signature in raw document" with
            | Except.error e2 =>
              exact Or.inl ⟨e2, hfuel ▸ hps⟩
            | Except.ok sigs =>
              by_cases hall : ∀ s ∈ sigs,
                  s.verify ((HashState.new.update (body.take dlen)).get_hash) = true
              · have := parseVerifySigs_ok_of_parseSigs body.length (body.drop dlen)
                  ((HashState.new.update (body.take dlen)).get_hash)
                  "Invalid signature in raw document"
                  "Signature doesn't verify against document"
                  "Invalid signature in raw document" sigs hps hall
                rw [hpv] at this
                cases this
              · push_neg at hall
                obtain ⟨s, hs, hsv⟩ := hall
                exact Or.inr ⟨sigs, hfuel ▸ hps, s, hs,
                  Bool.not_eq_true _ ▸ hsv⟩
          constructor
          · constructor
            · intro _
              exact Or.inr (Or.inr ⟨body, hbody, Or.inr (Or.inr ⟨dlen, hvv, hbad⟩)⟩)
            · intro _
              exact ⟨_, hdd⟩
          · intro d hd
            rw [hdd] at hd
            cases hd
        | Except.ok ids =>
          obtain ⟨sigs, hps, hmap, hall⟩ := parseVerifySigs_ok_inv body.length
            (body.drop dlen) ((HashState.new.update (body.take dlen)).get_hash)
            "Invalid signature in raw document"
            "Signature doesn't verify against document" ids hpv
          have hdd : ∃ D, NoSchema.decode_doc buf = Except.ok D ∧ D.signed_by = ids := by
            unfold NoSchema.decode_doc
            rw [hdr]
            simp only [hsch, Bool.false_eq_true, if_false, hvv, hpv]
            exact ⟨_, rfl, rfl⟩
          obtain ⟨D, hD, hDsb⟩ := hdd
          constructor
          · constructor
            · rintro ⟨e, he⟩
              rw [hD] at he
              cases he
            · intro hc3
              exfalso
              rcases hc3 with h | h | ⟨body2, hbody2, hinner⟩
              · exact hnoerr (Or.inl h)
              · exact hnoerr (Or.inr h)
              · rw [hbody] at hbody2
                cases hbody2
                rcases hinner with h | ⟨hh, hhs⟩ | ⟨dlen2, hvv2, htail⟩
                · rw [hvv] at h
                  cases h
                · exact hsch (by simp [hhs])
                · rw [hvv] at hvv2
                  cases hvv2
                  rcases htail with ⟨e2, he2⟩ | ⟨sigs2, hps2, s, hsmem, hsbad⟩
                  · rw [← hfuel, hps] at he2
                    cases he2
                  · rw [← hfuel, hps] at hps2
                    cases hps2
                    have hval : s.verify ⟨1, digestOf (body.take dlen)⟩ = true :=
                      hall s hsmem
                    rw [hval] at hsbad
                    cases hsbad
          · intro d hd
            rw [hD] at hd
            cases hd
            exact ⟨body, dlen, sigs, hbody, hvv, hfuel ▸ hps, hall, hDsb ▸ hmap ▸ rfl⟩

/-- C3 witness: the blob `[5]` has a bad CompressType byte and is
rejected; the blob `[0, 6, 0]` (uncompressed empty map, no signatures)
decodes with an empty signer list. -/
theorem c3_decode_doc_error_conditions_witness :
    (∃ e, NoSchema.decode_doc [5] = Except.error e) ∧
    (∃ body dlen sigs,
      decodedBody [0, 6, 0] = some body ∧ verifyValue body = some dlen ∧
      parseSigs (body.drop dlen).length (body.drop dlen)
        "Invalid signature in raw document" = Except.ok sigs ∧
      (∀ s ∈ sigs, s.verify ⟨1, digestOf (body.take dlen)⟩ = true) ∧
      (⟨some ⟨[6, 0]⟩, some ⟨1, digestOf [6, 0]⟩, ⟨1, digestOf [6, 0]⟩, 2, [6, 0],
        none, []⟩ : Document).signed_by = sigs.map Signature.signed_by) := by
  constructor
  · exact (c3_decode_doc_error_conditions [5]).1.mpr
      (Or.inl (Or.inr (Or.inl ⟨5, [], rfl, by omega⟩)))
  · exact (c3_decode_doc_error_conditions [0, 6, 0]).2
      ⟨some ⟨[6, 0]⟩, some ⟨1, digestOf [6, 0]⟩, ⟨1, digestOf [6, 0]⟩, 2, [6, 0],
        none, []⟩ rfl
